import Mathlib

/-!
Verification development for the `ls` implementation (ls.c, print.c, util.c,
print.h, util.h): shallow embeddings of the record builder, the size
renderers, the column width tracker, the sort comparator and the grid layout
search, with theorems about them.

Conventions: C byte buffers are `List Char` (the terminating NUL is modelled
by the end of the list); C strings of bytes used only for comparison are
`List Nat`; machine integers are `Nat`/`Int` (the quantities involved stay in
range in every claim considered here).
-/

set_option maxRecDepth 8000

namespace LsSpec

/-- The field delimiter byte placed between record fields
(print.h line 11: `#define DELIMITER '\b'`, the backspace character, code 8). -/
def DELIMITER : Char := Char.ofNat 8

/-- Default terminal width (print.h line 14: `#define TTY_COLUMNS 80`). -/
def TTY_COLUMNS : Nat := 80

/-- Record buffer capacity (print.h line 13: `#define LINE_SIZE 512`). -/
def LINE_SIZE : Nat := 512

/-- The character for decimal digit `n` (0 ≤ n ≤ 9), as produced by
`snprintf("%lu", ...)`. -/
def digitChar (n : Nat) : Char := Char.ofNat (48 + n)

/-- Fuel-indexed decimal digit rendering; fuel `n + 1` always suffices for
value `n`, so `natDecGo (n+1) n` renders `n` exactly. -/
def natDecGo : Nat → Nat → List Char
  | 0, _ => []
  | fuel + 1, n =>
    if n < 10 then [digitChar n]
    else natDecGo fuel (n / 10) ++ [digitChar (n % 10)]

/-- `print_size_dec` (print.c lines 178-190): renders the given value in
decimal notation, modelling `snprintf(*buf_ptr, *remain, "%lu", size)`. -/
def print_size_dec (n : Nat) : List Char := natDecGo (n + 1) n

/-- `print_size_kilo` (print.c lines 239-252): converts the given size in
bytes to kilobytes, rounding up if the fractional part is not zero, and
prints the result in decimal. -/
def print_size_kilo (size : Nat) : List Char :=
  let kilo := size / 1024
  let kilo := if size % 1024 > 0 then kilo + 1 else kilo
  print_size_dec kilo

/-- The iteration count of the `while (result >= 1000) { result /= 1024; unit++; }`
loop of `print_size_human` (print.c lines 216-221).  The C loop works on a
`double`; division of a double by 1024 is exact (it only decrements the
binary exponent), and for `size < 2^53` the initial conversion to double is
exact as well, so the loop value after `k` divisions is exactly
`size / 1024^k` and its comparison with 1000 agrees with the integer
comparison `1000 ≤ size / 1024^k` (floor division) used here. -/
def humanUnit (size : Nat) : Nat :=
  if 1000 ≤ size then humanUnit (size / 1024) + 1 else 0
termination_by size
decreasing_by exact Nat.div_lt_self (by omega) (by omega)

/-- The final value of `result` in `print_size_human`: the size divided by
1024 once per unit step (exact in double arithmetic, hence a rational). -/
def humanResult (size : Nat) : ℚ := (size : ℚ) / 1024 ^ humanUnit size

/-- `fracdigits` of `print_size_human` (print.c line 223):
`(result >= 10 || (result == 0)) ? 0 : 1`. -/
def humanFracdigits (size : Nat) : Nat :=
  if 10 ≤ humanResult size ∨ humanResult size = 0 then 0 else 1

/-- The unit table of `print_size_human` (print.c line 211). -/
def humanUnits : List Char := ['B', 'K', 'M', 'G', 'T', 'P', 'E']

/-- Round a rational to the nearest integer, ties to even: the rounding
performed by `printf("%.*f", ...)` (round-to-nearest-even) on a value that
the double holds exactly. -/
def roundHalfEven (q : ℚ) : ℤ :=
  if Int.fract q < 1 / 2 then Int.floor q
  else if 1 / 2 < Int.fract q then Int.floor q + 1
  else if Int.floor q % 2 = 0 then Int.floor q else Int.floor q + 1

/-- The text `snprintf(*buf_ptr, *remain, "%.*f", d, q)` produces for a
nonnegative value `q` (print.c line 226): the value rounded to `d` decimal
places, with a decimal point and exactly `d` fractional digits when
`d > 0`. -/
def formatFixed (q : ℚ) (d : Nat) : List Char :=
  let n := (roundHalfEven (q * 10 ^ d)).toNat
  if d = 0 then print_size_dec n
  else
    print_size_dec (n / 10 ^ d) ++
      '.' :: (List.replicate (d - (print_size_dec (n % 10 ^ d)).length) '0' ++
        print_size_dec (n % 10 ^ d))

/-- `print_size_human` (print.c lines 205-233): the result of the division
loop printed with `fracdigits` fractional digits, followed by the unit
letter when `0 < unit < 7` (`'B'` for the base unit is never printed). -/
def print_size_human (size : Nat) : List Char :=
  formatFixed (humanResult size) (humanFracdigits size) ++
    (if 0 < humanUnit size ∧ humanUnit size < 7 then
      [humanUnits.getD (humanUnit size) ' '] else [])

/-- Error kinds of the formatting core (spec §7); the only one raised inside
the width tracker is the field count mismatch of set_max_per_col. -/
inductive err_kind
  | FieldCountMismatch
deriving DecidableEq

/-- Number of DELIMITER bytes in a buffer, as counted by the column-count
loop of init_max_per_col (print.c lines 122-127). -/
def delimCount (buf : List Char) : Nat := buf.countP (fun c => c == DELIMITER)

/-- Field count of a record buffer: one more than its delimiter count
(print.c line 129, "last entry is null-terminated"). -/
def fieldCount (buf : List Char) : Nat := delimCount buf + 1

/-- The conditional width store of set_max_per_col (print.c lines 82-83 and
90-91): `if (!max || (width > dst->max_width[col])) dst->max_width[col] = width`. -/
def smpc_set (maxF : Bool) (dst : List Nat) (col width : Nat) : List Nat :=
  if maxF = false ∨ dst.getD col 0 < width then dst.set col width else dst

/-- The after-loop step of set_max_per_col (print.c lines 89-93): the last
field's width is stored when exactly the expected number of columns was
seen, otherwise `errx(EXIT_FAILURE, "entry has more columns than other
entries!")` terminates the process — modelled by the error result (updates
made in place before the abort are unobservable). -/
def smpc_final (maxF : Bool) (col width : Nat) (dst : List Nat) :
    Except err_kind (List Nat) :=
  if col + 1 = dst.length then Except.ok (smpc_set maxF dst col width)
  else Except.error err_kind.FieldCountMismatch

/-- The character loop of set_max_per_col (print.c lines 78-88): walk the
buffer while `col < dst->cols`, storing the running width and resetting it
at each delimiter; the loop also exits early once col reaches dst->cols. -/
def smpc_go (maxF : Bool) :
    List Char → Nat → Nat → List Nat → Except err_kind (List Nat)
  | [], col, width, dst => smpc_final maxF col width dst
  | c :: rest, col, width, dst =>
    if col < dst.length then
      if c = DELIMITER then
        smpc_go maxF rest (col + 1) 0 (smpc_set maxF dst col width)
      else
        smpc_go maxF rest col (width + 1) dst
    else smpc_final maxF col width dst

/-- set_max_per_col (print.c lines 70-94). -/
def set_max_per_col (buf : List Char) (dst : List Nat) (maxF : Bool) :
    Except err_kind (List Nat) :=
  smpc_go maxF buf 0 0 dst

/-- update_max_per_col (print.c lines 144-148): fold a record into an
initialized tracker, keeping per-field maxima. -/
def update_max_per_col (buf : List Char) (dst : List Nat) :
    Except err_kind (List Nat) :=
  set_max_per_col buf dst true

/-- init_max_per_col (print.c lines 116-137): count the columns, allocate
the width array (its initial contents are irrelevant because `max = 0`
stores unconditionally), and fill it from the buffer. -/
def init_max_per_col (buf : List Char) : List Nat :=
  match set_max_per_col buf (List.replicate (fieldCount buf) 0) false with
  | Except.ok w => w
  | Except.error _ => []

/-- set_max (print.c lines 99-110): store the pointwise maximum of two width
vectors in dst (the source asserts `dst->cols == m1->cols`). -/
def set_max (dst m1 : List Nat) : List Nat := List.zipWith max dst m1

/-- The field widths of a buffer continued from a running width for the
current field: the reference value realized by the set_max_per_col walk. -/
def fieldWidthsFrom : List Char → Nat → List Nat
  | [], width => [width]
  | c :: rest, width =>
    if c = DELIMITER then width :: fieldWidthsFrom rest 0
    else fieldWidthsFrom rest (width + 1)

/-- The field widths of a record buffer. -/
def fieldWidths (buf : List Char) : List Nat := fieldWidthsFrom buf 0

/-- How set_max_per_col combines stored widths with the buffer's field
widths: pointwise maximum when updating (max = 1), overwrite when
initializing (max = 0). -/
def smpc_comb : Bool → List Nat → List Nat → List Nat
  | true, old, new => List.zipWith max old new
  | false, _, new => new

/-- Sort keys (util.h lines 40-46). -/
inductive sort_type
  | SORT_LEXICO
  | SORT_SIZE
  | SORT_ATIME
  | SORT_MTIME
  | SORT_CTIME
deriving DecidableEq

/-- One entry as seen by the comparator and the argument sort (util.h lines
35-38): the bytes of the C name string (a valid C string contains no zero
byte) and the stat fields read by the sort keys; `isDir` stands for
`S_ISDIR(sb.st_mode)`, the bit stat_and_sort partitions by. -/
structure file_entry where
  name : List Nat
  st_size : Int
  st_atime : Int
  st_mtime : Int
  st_ctime : Int
  isDir : Bool
deriving DecidableEq, Inhabited

/-- tolower(3) on a byte in the C locale, as applied by strcasecmp(3). -/
def tolowerB (c : Nat) : Nat := if 65 ≤ c ∧ c ≤ 90 then c + 32 else c

/-- strcasecmp(3) (util.c line 40): case-insensitive byte comparison,
returning the difference of the first differing lowercased bytes; when one
string is a prefix of the other, its terminating NUL (lowercased 0)
participates in that difference. -/
def strcasecmp : List Nat → List Nat → Int
  | [], [] => 0
  | [], c :: _ => 0 - (tolowerB c : Int)
  | c :: _, [] => (tolowerB c : Int)
  | c1 :: s1, c2 :: s2 =>
    if tolowerB c1 = tolowerB c2 then strcasecmp s1 s2
    else (tolowerB c1 : Int) - (tolowerB c2 : Int)

/-- The key-dependent comparison result `res` of cmp (util.c lines 34-79):
strcasecmp of the names for the lexicographic key; for the other keys the
default `res = -1` is kept when the first entry's field is larger,
overwritten with 1 when it is smaller and with 0 on equality (so larger
sizes and later timestamps sort first). -/
def cmp_res (key : sort_type) (e1 e2 : file_entry) : Int :=
  match key with
  | sort_type.SORT_LEXICO => strcasecmp e1.name e2.name
  | sort_type.SORT_SIZE =>
    if e1.st_size < e2.st_size then 1
    else if e1.st_size = e2.st_size then 0 else -1
  | sort_type.SORT_ATIME =>
    if e1.st_atime < e2.st_atime then 1
    else if e1.st_atime = e2.st_atime then 0 else -1
  | sort_type.SORT_MTIME =>
    if e1.st_mtime < e2.st_mtime then 1
    else if e1.st_mtime = e2.st_mtime then 0 else -1
  | sort_type.SORT_CTIME =>
    if e1.st_ctime < e2.st_ctime then 1
    else if e1.st_ctime = e2.st_ctime then 0 else -1

/-- cmp (util.c lines 27-85), with the process-wide `sort_key` and
`reverse` globals passed explicitly: the key comparison, negated when
reverse is set (util.c lines 81-84). -/
def cmp (key : sort_type) (reverse : Bool) (e1 e2 : file_entry) : Int :=
  if reverse then -cmp_res key e1 e2 else cmp_res key e1 e2

/-- The process-wide sort configuration (util.h lines 51-52, util.c lines
15-16), passed around explicitly in this embedding. -/
structure sort_state where
  sort_key : sort_type
  reverse : Bool
deriving DecidableEq

/-- Insert one element into a comparator-ordered list, before the first
element it does not compare greater than. -/
def insertByCmp (c : file_entry → file_entry → Int) (x : file_entry) :
    List file_entry → List file_entry
  | [] => [x]
  | y :: l => if c x y ≤ 0 then x :: y :: l else y :: insertByCmp c x l

/-- qsort(3) modelled as a comparator-driven sort (insertion sort): the C
library sort is external, and any qsort implementation returns some
arrangement ordered by the comparator, which is the only property used
here (the tie order is explicitly unspecified, spec §4.2). -/
def sortByCmp (c : file_entry → file_entry → Int) :
    List file_entry → List file_entry
  | [] => []
  | x :: l => insertByCmp c x (sortByCmp c l)

/-- The placement loop of stat_and_sort (util.c lines 104-121): walking the
argument list, each non-directory goes to the front block's next free slot
(index non_dirc) and each directory to index `pathc - 1 - i + non_dirc`,
so the directories fill the back block from its end backwards: the front
block holds the non-directories in input order and the back block the
directories in reverse input order. -/
def stat_place : List file_entry → List file_entry × List file_entry
  | [] => ([], [])
  | e :: rest =>
    let fb := stat_place rest
    if e.isDir then (fb.1, fb.2 ++ [e]) else (e :: fb.1, fb.2)

/-- struct flags (util.h lines 10-33). -/
structure flags where
  Aflag : Bool
  aflag : Bool
  Cflag : Bool
  cflag : Bool
  dflag : Bool
  Fflag : Bool
  fflag : Bool
  hflag : Bool
  iflag : Bool
  kflag : Bool
  lflag : Bool
  nflag : Bool
  qflag : Bool
  Rflag : Bool
  rflag : Bool
  Sflag : Bool
  sflag : Bool
  tflag : Bool
  uflag : Bool
  wflag : Bool
  xflag : Bool
  oneflag : Bool
deriving DecidableEq

/-- flags_init (util.c lines 218-244): every flag zero. -/
def flags_init : flags :=
  { Aflag := false, aflag := false, Cflag := false, cflag := false,
    dflag := false, Fflag := false, fflag := false, hflag := false,
    iflag := false, kflag := false, lflag := false, nflag := false,
    qflag := false, Rflag := false, rflag := false, Sflag := false,
    sflag := false, tflag := false, uflag := false, wflag := false,
    xflag := false, oneflag := false }

/-- A record buffer being filled: the characters written so far (buf_ptr
advances over them) and the remaining capacity `remain`. -/
structure wbuf where
  data : List Char
  remain : Nat
deriving DecidableEq

/-- print_char (print.c lines 153-162): append the character when at least
one byte of capacity remains, otherwise do nothing — the character is
silently discarded, no error is signalled. -/
def print_char (b : wbuf) (c : Char) : wbuf :=
  if 1 ≤ b.remain then { data := b.data ++ [c], remain := b.remain - 1 }
  else b

/-- isprint(3) in the C locale: the printable ASCII range 0x20..0x7e. -/
def isprintc (c : Char) : Bool := 32 ≤ c.toNat && c.toNat ≤ 126

/-- The character substitution of print_name (print.c lines 407-413): a
non-printable character prints as '?' when the q flag is set and w is
not. -/
def name_subst (flag : flags) (c : Char) : Char :=
  if flag.qflag && !flag.wflag && !isprintc c then '?' else c

/-- print_name (print.c lines 396-415): print the name character by
character through print_char, substituting per name_subst. -/
def print_name (b : wbuf) (name : List Char) (flag : flags) : wbuf :=
  name.foldl (fun b c => print_char b (name_subst flag c)) b

/-- The text print_name produces when capacity suffices. -/
def print_name_text (name : List Char) (flag : flags) : List Char :=
  name.map (name_subst flag)

/-- is_dot_dir (util.c lines 187-192). -/
def is_dot_dir (name : List Char) : Bool :=
  name == ['.'] || name == ['.', '.']

/-- is_hidden_file (util.c lines 198-203): first byte '.' (the terminating
NUL for an empty name) and not "." or "..". -/
def is_hidden_file (name : List Char) : Bool :=
  (name.headD (Char.ofNat 0) == '.') && !is_dot_dir name

/-- display_file (util.c lines 208-213). -/
def display_file (name : List Char) (flag : flags) : Bool :=
  if is_dot_dir name || is_hidden_file name then flag.aflag else true

/-- File kinds distinguished by the S_IFMT bits in print.c (the default
switch branch covers regular, block and character files). -/
inductive file_kind
  | reg
  | dir
  | lnk
  | fifo
  | sock
  | blk
  | chr
  | wht
deriving DecidableEq

/-- The mode bits the record builder reads: the file kind from S_IFMT and
the three execute permission bits S_IXUSR, S_IXGRP, S_IXOTH. -/
structure st_mode_t where
  kind : file_kind
  xusr : Bool
  xgrp : Bool
  xoth : Bool
deriving DecidableEq

/-- The stat fields the record builder reads (major/minor of st_rdev are
pre-split). -/
structure stat_t where
  st_ino : Nat
  st_mode : st_mode_t
  st_nlink : Nat
  st_size : Nat
  st_blocks : Nat
  st_uid : Nat
  st_gid : Nat
  rdev_major : Nat
  rdev_minor : Nat
deriving DecidableEq

/-- print_type_symbol (print.c lines 308-336): the symbol for the entry's
kind; '@' for a symlink only when neither long-format flag (l, n) is set;
'*' in the default branch when any execute bit is set. -/
def print_type_symbol (m : st_mode_t) (flag : flags) : List Char :=
  match m.kind with
  | file_kind.dir => ['/']
  | file_kind.fifo => ['|']
  | file_kind.lnk => if !(flag.lflag || flag.nflag) then ['@'] else []
  | file_kind.sock => ['=']
  | file_kind.wht => ['%']
  | _ => if m.xusr || m.xgrp || m.xoth then ['*'] else []

/-- print_owner (print.c lines 420-433): the name from getpwuid (external
lookup, passed as an optional result) printed via print_name when the n
flag is unset and the lookup succeeds, else the numeric uid. -/
def print_owner_text (sb : stat_t) (pw : Option (List Char)) (flag : flags) :
    List Char :=
  match pw, flag.nflag with
  | some nm, false => print_name_text nm flag
  | _, _ => print_size_dec sb.st_uid

/-- print_group (print.c lines 438-451), like print_owner with getgrgid. -/
def print_group_text (sb : stat_t) (grp : Option (List Char)) (flag : flags) :
    List Char :=
  match grp, flag.nflag with
  | some nm, false => print_name_text nm flag
  | _, _ => print_size_dec sb.st_gid

/-- print_size (print.c lines 456-475): "major,minor" for block/character
devices regardless of the h/k flags, else the byte size under the active
size conversion policy. -/
def print_size_text (sb : stat_t) (flag : flags) : List Char :=
  if sb.st_mode.kind = file_kind.blk ∨ sb.st_mode.kind = file_kind.chr then
    print_size_dec sb.rdev_major ++ ',' :: print_size_dec sb.rdev_minor
  else if flag.hflag then print_size_human sb.st_size
  else if flag.kflag then print_size_kilo sb.st_size
  else print_size_dec sb.st_size

/-- blkcnt_t_to_bytes (print.c lines 257-261); the blocksize comes from the
BLOCKSIZE environment variable (external), default 512. -/
def blkcnt_t_to_bytes (blks blocksize : Nat) : Nat := blks * blocksize

/-- blkcnt_t_to_blocks (print.c lines 266-279): rescale 512-byte blocks to
blocksize units rounding up; the C computes this in double arithmetic,
idealized here as exact rounding (no claim depends on this value). -/
def blkcnt_t_to_blocks (blks blocksize : Nat) : Nat :=
  blks * 512 / blocksize + (if blks * 512 % blocksize = 0 then 0 else 1)

/-- print_blks (print.c lines 284-303). -/
def print_blks_text (blocks : Nat) (flag : flags) (blocksize : Nat) :
    List Char :=
  if flag.hflag || flag.kflag then
    if flag.hflag then print_size_human (blkcnt_t_to_bytes blocks blocksize)
    else print_size_kilo (blkcnt_t_to_bytes blocks blocksize)
  else print_size_dec (blkcnt_t_to_blocks blocks blocksize)

/-- print_long (print.c lines 525-552): mode text (strmode(3) is external,
its 10 characters a parameter), link count, owner, group, size and time
(strftime is external, its text a parameter), each followed by the
delimiter. -/
def print_long_text (sb : stat_t) (flag : flags) (modeStr : List Char)
    (pw grp : Option (List Char)) (timeStr : List Char) : List Char :=
  modeStr ++ DELIMITER ::
    (print_size_dec sb.st_nlink ++ DELIMITER ::
      (print_owner_text sb pw flag ++ DELIMITER ::
        (print_group_text sb grp flag ++ DELIMITER ::
          (print_size_text sb flag ++ DELIMITER ::
            (timeStr ++ [DELIMITER])))))

/-- print_file (print.c lines 720-768) as the record text it writes: no
record for a non-displayed entry; else inode and block fields (each with a
trailing delimiter) when requested, the long-format block when l or n is
set, the name (via print_name), the type symbol directly after it when F is
set, and for a symlink in long format the readlink text (" -> target" plus
optional target symbol — the resolution is external, its text the
`linkText` parameter).  The closing NUL is the end of the list; capacity
is handled by print_char (see print_name for the truncation behavior). -/
def print_file_text (name : List Char) (sb : stat_t) (flag : flags)
    (modeStr : List Char) (pw grp : Option (List Char))
    (timeStr linkText : List Char) (blocksize : Nat) : List Char :=
  if !flag.dflag && !display_file name flag then []
  else
    (if flag.iflag then print_size_dec sb.st_ino ++ [DELIMITER] else []) ++
      (if flag.sflag then
        print_blks_text sb.st_blocks flag blocksize ++ [DELIMITER] else []) ++
      (if flag.lflag || flag.nflag then
        print_long_text sb flag modeStr pw grp timeStr else []) ++
      print_name_text name flag ++
      (if flag.Fflag then print_type_symbol sb.st_mode flag else []) ++
      (if (flag.lflag || flag.nflag) && sb.st_mode.kind == file_kind.lnk then
        linkText else [])

/-- The last DELIMITER-separated field of a record buffer. -/
def lastField (l : List Char) : List Char :=
  (l.reverse.takeWhile (fun c => c != DELIMITER)).reverse

/-- Ceiling division as print_dir computes it (print.c lines 629-638): the
quotient, incremented when the remainder is nonzero. -/
def ceil_div (n d : Nat) : Nat := n / d + (if n % d = 0 then 0 else 1)

/-- Grid column of entry i with the C flag (print.c line 652): column-major
fill, i / curr_row. -/
def assignC (curr_row i : Nat) : Nat := i / curr_row

/-- Grid column of entry i with the x flag (print.c line 652): row-major
fill, i % curr_col. -/
def assignX (curr_col i : Nat) : Nat := i % curr_col

/-- The per-entry width vectors entryc_width of print_dir (print.c lines
612-618): init_max_per_col of each entry's record buffer. -/
def entry_widths (bufs : List (List Char)) : List (List Nat) :=
  bufs.map init_max_per_col

/-- One width-search iteration's accumulator for grid column j (print.c
lines 640-654): every max_col_width entry is reset to all ones, then each
entry i folds its widths via set_max into accumulator assign(i); m is the
common field count (entryc_width[0].cols). -/
def max_col_width (W : List (List Nat)) (assign : Nat → Nat) (m j : Nat) :
    List Nat :=
  (List.range W.length).foldl
    (fun acc i => if assign i = j then set_max acc (W.getD i []) else acc)
    (List.replicate m 1)

/-- The total row width computed at print.c lines 660-668: the sum over the
used grid columns of their per-field maxima, plus the whitespace term the
code adds, curr_col * entryc_width[0].cols - 1. -/
def row_chars (W : List (List Nat)) (assign : Nat → Nat) (m curr_col : Nat) :
    Nat :=
  ((List.range curr_col).map
    (fun j => (max_col_width W assign m j).sum)).sum + (curr_col * m - 1)

/-- The total row width as the claim reads the spec sentence — one
separator space per grid column minus one, i.e. curr_col - 1 — kept here
for comparison with row_chars, which follows the code. -/
def row_chars_spec (W : List (List Nat)) (assign : Nat → Nat)
    (m curr_col : Nat) : Nat :=
  ((List.range curr_col).map
    (fun j => (max_col_width W assign m j).sum)).sum + (curr_col - 1)

/-- The C-flag width-fitting loop (print.c lines 626-677), entered by the
code with curr_row = 1 (and entryc ≥ 1).  Each iteration recomputes
curr_col = ceil(entryc / curr_row), breaks at the degenerate grid — the
source tests curr_row == entryc, and since curr_row starts at 1 ≤ entryc
and grows by single steps the totality-friendly test entryc ≤ curr_row
used here agrees with it on every reachable state — otherwise accepts when
the total row width fits, else retries with curr_row + 1.  Returns the
final (curr_row, curr_col) and the number of iterations performed. -/
def search_C (W : List (List Nat)) (m columns curr_row : Nat) :
    Nat × Nat × Nat :=
  if _h : W.length ≤ curr_row then
    (curr_row, ceil_div W.length curr_row, 1)
  else if row_chars W (assignC curr_row) m (ceil_div W.length curr_row)
      ≤ columns then
    (curr_row, ceil_div W.length curr_row, 1)
  else
    let r := search_C W m columns (curr_row + 1)
    (r.1, r.2.1, r.2.2 + 1)
termination_by W.length - curr_row
decreasing_by omega

/-- The x-flag width-fitting loop (print.c lines 626-677), entered with
curr_col = entryc ≥ 1: recomputes curr_row = ceil(entryc / curr_col),
breaks at the degenerate single column (source test curr_col == 1; the
totality-friendly curr_col ≤ 1 agrees on every reachable state), accepts
when the total fits, else retries with curr_col - 1. -/
def search_x (W : List (List Nat)) (m columns curr_col : Nat) :
    Nat × Nat × Nat :=
  if _h : curr_col ≤ 1 then
    (ceil_div W.length curr_col, curr_col, 1)
  else if row_chars W (assignX curr_col) m curr_col ≤ columns then
    (ceil_div W.length curr_col, curr_col, 1)
  else
    let r := search_x W m columns (curr_col - 1)
    (r.1, r.2.1, r.2.2 + 1)
termination_by curr_col
decreasing_by omega

/-- The number of characters print_buf (print.c lines 774-806) emits for
one record cell, the trailing newline excluded: every field prints its
text, is padded up to the column maximum, and is followed by one
delimiting space; with newline set the final field prints unpadded with no
trailing space.  print_dir guarantees the record's field count equals the
width vector's cols, the only case the rendering reaches. -/
def print_buf_width : List Nat → List Nat → Bool → Nat
  | [w], [M], newline => if newline then w else max w M + 1
  | w :: w2 :: ws, M :: M2 :: Ms, newline =>
    (max w M + 1) + print_buf_width (w2 :: ws) (M2 :: Ms) newline
  | _, _, _ => 0

/-- The width of output row i of the C-flag rendering (print.c lines
680-696), its newline excluded: cell j holds entry p = i + j * curr_row
when p < entryc — print_buf with the newline flag at the last grid
column — and prints a bare newline (width 0) otherwise. -/
def render_row_width_C (W : List (List Nat)) (m curr_row curr_col i : Nat) :
    Nat :=
  ((List.range curr_col).map (fun j =>
    if i + j * curr_row < W.length then
      print_buf_width (W.getD (i + j * curr_row) [])
        (max_col_width W (assignC curr_row) m j)
        (decide (j = curr_col - 1))
    else 0)).sum

/-- The width of output row r of the x-flag rendering (print.c lines
698-709): cell j holds entry r * curr_col + j while in range; print_buf
gets the newline flag at the last grid column or at the last entry
overall. -/
def render_row_width_x (W : List (List Nat)) (m curr_col r : Nat) : Nat :=
  ((List.range curr_col).map (fun j =>
    if r * curr_col + j < W.length then
      print_buf_width (W.getD (r * curr_col + j) [])
        (max_col_width W (assignX curr_col) m j)
        (decide (j = curr_col - 1) ||
          decide (r * curr_col + j = W.length - 1))
    else 0)).sum

/-- Pointwise order on width vectors (same length, each width at most the
other's). -/
def listLe (a b : List Nat) : Prop := List.Forall₂ (fun x y => x ≤ y) a b

/-- A record prefix that is either empty or ends at a field boundary. -/
def delim_terminated (p : List Char) : Prop :=
  p = [] ∨ ∃ q, p = q ++ [DELIMITER]

set_option linter.unusedVariables false in
/-- stat_and_sort (util.c lines 95-129), with the process-wide sort
configuration passed as explicit state: after placing the entries it
overwrites the configuration with `reverse = 0; sort_key = SORT_LEXICO`
(util.c lines 123-124) — discarding whatever configuration `st` the caller
had set — and qsorts the two blocks separately under that configuration.
Returns the sorted entries, the non-directory count, and the configuration
left behind. -/
def stat_and_sort (args : List file_entry) (st : sort_state) :
    List file_entry × Nat × sort_state :=
  let fb := stat_place args
  let st2 : sort_state :=
    { sort_key := sort_type.SORT_LEXICO, reverse := false }
  (sortByCmp (cmp st2.sort_key st2.reverse) fb.1 ++
      sortByCmp (cmp st2.sort_key st2.reverse) fb.2,
    fb.1.length, st2)

end LsSpec

namespace LsSpec

/-- Unfolding equation for `humanUnit` (its defining recursion). -/
theorem humanUnit_eq (size : Nat) :
    humanUnit size = if 1000 ≤ size then humanUnit (size / 1024) + 1 else 0 := by
  rw [humanUnit]

/-- Integer characterization of the `print_size_human` division loop:
the loop runs exactly `humanUnit size` times, i.e. the value still was
≥ 1000 before each performed division and is < 1000 afterwards. -/
theorem humanUnit_spec (size : Nat) :
    size < 1000 * 1024 ^ humanUnit size ∧
      ∀ j < humanUnit size, 1000 * 1024 ^ j ≤ size := by
  induction size using Nat.strong_induction_on with
  | _ size ih =>
    rw [humanUnit_eq]
    by_cases h : 1000 ≤ size
    · simp only [if_pos h]
      have hlt : size / 1024 < size := Nat.div_lt_self (by omega) (by omega)
      obtain ⟨h1, h2⟩ := ih (size / 1024) hlt
      constructor
      · have := (Nat.div_lt_iff_lt_mul (by omega : 0 < 1024)).mp h1
        calc size < 1000 * 1024 ^ humanUnit (size / 1024) * 1024 := this
          _ = 1000 * 1024 ^ (humanUnit (size / 1024) + 1) := by ring
      · intro j hj
        match j with
        | 0 => simpa using h
        | j + 1 =>
          have hj' : j < humanUnit (size / 1024) := by omega
          have := h2 j hj'
          have := (Nat.le_div_iff_mul_le (by omega : 0 < 1024)).mp this
          calc 1000 * 1024 ^ (j + 1) = 1000 * 1024 ^ j * 1024 := by ring
            _ ≤ size := this
    · simp only [if_neg h]
      constructor
      · simpa using by omega
      · omega

/-- For any size below 2^64 (the range of `unsigned long`) the unit index
stays below 7, the length of the unit table. -/
theorem humanUnit_lt_seven (size : Nat) (h : size < 2 ^ 64) :
    humanUnit size < 7 := by
  by_contra hge
  have h6 : 1000 * 1024 ^ 6 ≤ size := (humanUnit_spec size).2 6 (by omega)
  have : (2 : Nat) ^ 64 < 1000 * 1024 ^ 6 := by norm_num
  omega

/-- C8: for every nonnegative byte size, kilobyte-mode conversion prints
`ceil(size / 1024)` as a plain integer with no unit suffix: the quotient
`size / 1024` is incremented exactly when `size % 1024` is nonzero, which
equals the rounded-up quotient `(size + 1023) / 1024`; in particular 1536
bytes renders as "2". -/
theorem kilo_rounds_up (size : Nat) :
    print_size_kilo size = print_size_dec ((size + 1023) / 1024) ∧
      (size % 1024 = 0 → print_size_kilo size = print_size_dec (size / 1024)) ∧
      (size % 1024 ≠ 0 → print_size_kilo size = print_size_dec (size / 1024 + 1)) ∧
      print_size_kilo 1536 = ['2'] := by
  refine ⟨?_, ?_, ?_, by decide⟩
  · rw [print_size_kilo]
    by_cases h : size % 1024 > 0
    · simp only [if_pos h]
      congr 1
      omega
    · simp only [if_neg h]
      congr 1
      omega
  · intro h
    rw [print_size_kilo]
    simp [h]
  · intro h
    rw [print_size_kilo]
    simp only [if_pos (by omega : size % 1024 > 0)]

/-- C3: human-readable conversion repeatedly divides the value by 1024 while
it is ≥ 1000 (`humanUnit` counts the divisions, so the final value
`size / 1024^unit` is < 1000 while every earlier value was ≥ 1000); the
result is printed with one fractional digit exactly when it is neither ≥ 10
nor exactly 0; the unit letter (indexing {B,K,M,G,T,P,E}) is appended
exactly when the unit is not the base unit; and 1,048,576 bytes renders as
"1.0M".  The hypothesis `size < 2^53` is the range in which the C `double`
holds every intermediate value exactly (see `humanUnit`). -/
theorem human_readable_spec (size : Nat) (h : size < 2 ^ 53) :
    ((size : ℚ) / 1024 ^ humanUnit size < 1000 ∧
      ∀ j < humanUnit size, 1000 ≤ (size : ℚ) / 1024 ^ j) ∧
    (humanFracdigits size = 1 ↔
      ¬(10 ≤ humanResult size ∨ humanResult size = 0)) ∧
    print_size_human size =
      formatFixed (humanResult size) (humanFracdigits size) ++
        (if humanUnit size = 0 then [] else [humanUnits.getD (humanUnit size) ' ']) ∧
    print_size_human 1048576 = ['1', '.', '0', 'M'] := by
  obtain ⟨h1, h2⟩ := humanUnit_spec size
  refine ⟨⟨?_, ?_⟩, ?_, ?_, ?_⟩
  · rw [div_lt_iff₀ (by positivity)]
    exact_mod_cast h1
  · intro j hj
    rw [le_div_iff₀ (by positivity)]
    exact_mod_cast h2 j hj
  · rw [humanFracdigits]
    by_cases hc : 10 ≤ humanResult size ∨ humanResult size = 0 <;> simp [hc]
  · rw [print_size_human]
    have h7 : humanUnit size < 7 := humanUnit_lt_seven size (by omega)
    by_cases h0 : humanUnit size = 0
    · simp [h0]
    · simp [h0, Nat.pos_of_ne_zero h0, h7]
  · have hu : humanUnit 1048576 = 2 := by
      rw [humanUnit_eq]; norm_num
      rw [humanUnit_eq]; norm_num
      rw [humanUnit_eq]; norm_num
    have hres : humanResult 1048576 = 1 := by
      rw [humanResult, hu]; norm_num
    have hfrac : humanFracdigits 1048576 = 1 := by
      rw [humanFracdigits, hres]; norm_num
    rw [print_size_human, hres, hfrac, hu]
    have hform : formatFixed 1 1 = ['1', '.', '0'] := by
      rw [formatFixed]
      have : roundHalfEven ((1 : ℚ) * 10 ^ 1) = 10 := by
        rw [roundHalfEven]
        norm_num [Int.fract]
      rw [this]
      decide
    rw [hform]
    decide

/-- Witness for `human_readable_spec` at size 1,048,576. -/
theorem human_readable_spec_witness :
    1048576 < 2 ^ 53 ∧ print_size_human 1048576 = ['1', '.', '0', 'M'] :=
  ⟨by norm_num, (human_readable_spec 1048576 (by norm_num)).2.2.2⟩

theorem delimCount_cons (c : Char) (rest : List Char) :
    delimCount (c :: rest) =
      (if c = DELIMITER then 1 else 0) + delimCount rest := by
  rw [delimCount, delimCount, List.countP_cons]
  by_cases h : c = DELIMITER <;> simp [h] <;> omega

theorem smpc_set_length (maxF : Bool) (dst : List Nat) (col width : Nat) :
    (smpc_set maxF dst col width).length = dst.length := by
  rw [smpc_set]; split <;> simp

/-- Explicit form of the conditional store when the column is in range. -/
theorem smpc_set_eq (maxF : Bool) (dst : List Nat) (col width : Nat)
    (hcol : col < dst.length) :
    smpc_set maxF dst col width =
      dst.take col ++
        (if maxF then max dst[col] width else width) :: dst.drop (col + 1) := by
  have hgetD : dst.getD col 0 = dst[col] := List.getD_eq_getElem dst 0 hcol
  rw [smpc_set, hgetD]
  cases maxF with
  | false =>
    rw [if_pos (Or.inl rfl), List.set_eq_take_cons_drop _ hcol]
    simp
  | true =>
    by_cases hgt : dst[col] < width
    · rw [if_pos (Or.inr hgt), List.set_eq_take_cons_drop _ hcol]
      have hmax : max dst[col] width = width := by omega
      simp [hmax]
    · rw [if_neg (by simp [hgt])]
      have hmax : max dst[col] width = dst[col] := by omega
      simp only [if_true, hmax]
      conv_lhs => rw [← List.take_append_drop col dst,
        List.drop_eq_getElem_cons hcol]

theorem take_len_append_cons (l r : List Nat) (v col : Nat) (h : l.length = col) :
    (l ++ v :: r).take (col + 1) = l ++ [v] := by
  subst h
  rw [List.take_append_eq_append_take]
  simp

theorem drop_len_append_cons (l r : List Nat) (v col : Nat) (h : l.length = col) :
    (l ++ v :: r).drop (col + 1) = r := by
  subst h
  rw [List.drop_append_eq_append_drop]
  simp

theorem fieldWidthsFrom_length (buf : List Char) :
    ∀ width, (fieldWidthsFrom buf width).length = delimCount buf + 1 := by
  induction buf with
  | nil => intro width; simp [fieldWidthsFrom, delimCount]
  | cons c rest ih =>
    intro width
    rw [fieldWidthsFrom, delimCount_cons]
    by_cases h : c = DELIMITER <;> simp [h, ih] <;> omega

theorem fieldWidths_length (buf : List Char) :
    (fieldWidths buf).length = fieldCount buf := by
  rw [fieldWidths, fieldCount, fieldWidthsFrom_length]

/-- The set_max_per_col walk, when the buffer's remaining field count
matches the remaining columns, returns the stored widths combined with the
buffer's field widths from position col on. -/
theorem smpc_go_ok (maxF : Bool) (buf : List Char) :
    ∀ (col width : Nat) (dst : List Nat),
      col + delimCount buf + 1 = dst.length →
      smpc_go maxF buf col width dst =
        Except.ok (dst.take col ++
          smpc_comb maxF (dst.drop col) (fieldWidthsFrom buf width)) := by
  induction buf with
  | nil =>
    intro col width dst h
    simp only [delimCount, List.countP_nil] at h
    have hcol : col < dst.length := by omega
    rw [smpc_go, smpc_final, if_pos (by omega), fieldWidthsFrom,
      smpc_set_eq maxF dst col width hcol,
      List.drop_eq_getElem_cons hcol,
      List.drop_eq_nil_of_le (by omega : dst.length ≤ col + 1)]
    cases maxF with
    | false => simp [smpc_comb]
    | true => rw [smpc_comb]; simp [List.zipWith]
  | cons c rest ih =>
    intro col width dst h
    rw [delimCount_cons] at h
    by_cases hc : c = DELIMITER
    · rw [if_pos hc] at h
      have hcol : col < dst.length := by omega
      rw [smpc_go, if_pos hcol, if_pos hc,
        ih (col + 1) 0 (smpc_set maxF dst col width)
          (by rw [smpc_set_length]; omega),
        smpc_set_eq maxF dst col width hcol]
      have htk : (dst.take col).length = col := by
        simp [List.length_take]; omega
      rw [take_len_append_cons _ _ _ _ htk, drop_len_append_cons _ _ _ _ htk]
      rw [fieldWidthsFrom, if_pos hc, List.drop_eq_getElem_cons hcol]
      cases maxF with
      | false => simp [smpc_comb]
      | true => rw [smpc_comb, smpc_comb, List.zipWith]; simp
    · rw [if_neg hc] at h
      have hcol : col < dst.length := by omega
      rw [smpc_go, if_pos hcol, if_neg hc,
        ih col (width + 1) dst (by omega), fieldWidthsFrom, if_neg hc]

/-- The set_max_per_col walk fails with the column-count errx whenever the
buffer's field count does not match the tracker's. -/
theorem smpc_go_error (maxF : Bool) (buf : List Char) :
    ∀ (col width : Nat) (dst : List Nat),
      col + delimCount buf + 1 ≠ dst.length →
      smpc_go maxF buf col width dst =
        Except.error err_kind.FieldCountMismatch := by
  induction buf with
  | nil =>
    intro col width dst h
    rw [delimCount] at h
    simp only [List.countP_nil] at h
    rw [smpc_go, smpc_final, if_neg (by omega)]
  | cons c rest ih =>
    intro col width dst h
    rw [delimCount_cons] at h
    rw [smpc_go]
    by_cases hcol : col < dst.length
    · rw [if_pos hcol]
      by_cases hc : c = DELIMITER
      · rw [if_pos hc]
        rw [if_pos hc] at h
        exact ih (col + 1) 0 _ (by rw [smpc_set_length]; omega)
      · rw [if_neg hc]
        rw [if_neg hc] at h
        exact ih col (width + 1) dst (by omega)
    · rw [if_neg hcol, smpc_final, if_neg (by omega)]

/-- init_max_per_col computes exactly the buffer's field widths. -/
theorem init_max_per_col_eq (buf : List Char) :
    init_max_per_col buf = fieldWidths buf := by
  rw [init_max_per_col, set_max_per_col,
    smpc_go_ok false buf 0 0 _ (by simp [fieldCount])]
  rw [smpc_comb, fieldWidths]
  simp

theorem init_max_per_col_length (buf : List Char) :
    (init_max_per_col buf).length = fieldCount buf := by
  rw [init_max_per_col_eq, fieldWidths_length]

/-- C5: updating an initialized tracker with a record whose field count
differs from the tracker's `cols` (fewer or more fields alike) fails with
the fatal field-count-mismatch error (`errx` terminates the process, so no
width update becomes observable). -/
theorem update_mismatch_fails (r buf : List Char)
    (h : fieldCount buf ≠ fieldCount r) :
    update_max_per_col buf (init_max_per_col r) =
      Except.error err_kind.FieldCountMismatch := by
  rw [update_max_per_col, set_max_per_col]
  apply smpc_go_error
  rw [init_max_per_col_length]
  simp only [fieldCount] at h ⊢
  omega

/-- Witness for `update_mismatch_fails`: a two-field record against a
tracker initialized from a three-field record. -/
theorem update_mismatch_fails_witness :
    fieldCount ['a', Char.ofNat 8, 'b'] ≠
        fieldCount ['a', Char.ofNat 8, 'b', Char.ofNat 8, 'c'] ∧
      update_max_per_col ['a', Char.ofNat 8, 'b']
          (init_max_per_col ['a', Char.ofNat 8, 'b', Char.ofNat 8, 'c']) =
        Except.error err_kind.FieldCountMismatch :=
  ⟨by decide, update_mismatch_fails _ _ (by decide)⟩

theorem zipWith_max_getD (a : List Nat) :
    ∀ (b : List Nat), a.length = b.length →
      ∀ i, (List.zipWith max a b).getD i 0 = max (a.getD i 0) (b.getD i 0) := by
  induction a with
  | nil =>
    intro b hb i
    have : b = [] := by
      cases b with
      | nil => rfl
      | cons x xs => simp at hb
    subst this
    simp
  | cons x xs ih =>
    intro b hb i
    cases b with
    | nil => simp at hb
    | cons y ys =>
      simp only [List.length_cons, Nat.add_right_cancel_iff] at hb
      cases i with
      | zero => simp
      | succ j => simpa using ih ys hb j

/-- C10: the width tracker's fold operations are monotone.  Updating a
tracker with a record of matching field count succeeds and produces exactly
the pointwise maximum of the old widths and the record's field widths —
hence the field count is unchanged, no width decreases, and a width changes
only by growing to the record's field width when that is larger; and
merging one width vector into another with set_max never decreases any
stored width. -/
theorem update_monotone (buf : List Char) (dst : List Nat)
    (h : fieldCount buf = dst.length) :
    update_max_per_col buf dst =
        Except.ok (List.zipWith max dst (fieldWidths buf)) ∧
      (List.zipWith max dst (fieldWidths buf)).length = dst.length ∧
      (∀ i, dst.getD i 0 ≤ (List.zipWith max dst (fieldWidths buf)).getD i 0) ∧
      (∀ i, (List.zipWith max dst (fieldWidths buf)).getD i 0 =
        max (dst.getD i 0) ((fieldWidths buf).getD i 0)) ∧
      ∀ m1 : List Nat, m1.length = dst.length →
        ∀ i, dst.getD i 0 ≤ (set_max dst m1).getD i 0 := by
  have hlen : dst.length = (fieldWidths buf).length := by
    rw [fieldWidths_length, h]
  refine ⟨?_, ?_, ?_, ?_, ?_⟩
  · rw [update_max_per_col, set_max_per_col,
      smpc_go_ok true buf 0 0 dst (by rw [fieldCount] at h; omega)]
    rw [smpc_comb]
    simp [fieldWidths]
  · simp [hlen]
  · intro i
    rw [zipWith_max_getD dst (fieldWidths buf) hlen i]
    omega
  · intro i
    exact zipWith_max_getD dst (fieldWidths buf) hlen i
  · intro m1 hm1 i
    rw [set_max, zipWith_max_getD dst m1 hm1.symm i]
    omega

/-- Witness for `update_monotone`: widths [3, 1] updated by a record with
field widths [1, 2]. -/
theorem update_monotone_witness :
    fieldCount ['a', Char.ofNat 8, 'b', 'c'] = [3, 1].length ∧
      update_max_per_col ['a', Char.ofNat 8, 'b', 'c'] [3, 1] =
        Except.ok (List.zipWith max [3, 1]
          (fieldWidths ['a', Char.ofNat 8, 'b', 'c'])) :=
  ⟨by decide, (update_monotone ['a', Char.ofNat 8, 'b', 'c'] [3, 1] (by decide)).1⟩

theorem strcasecmp_self : ∀ s : List Nat, strcasecmp s s = 0 := by
  intro s
  induction s with
  | nil => rfl
  | cons c rest ih => rw [strcasecmp, if_pos rfl, ih]

theorem strcasecmp_antisym :
    ∀ a b : List Nat, strcasecmp a b = -strcasecmp b a := by
  intro a
  induction a with
  | nil =>
    intro b
    cases b with
    | nil => rfl
    | cons b1 bs => rw [strcasecmp, strcasecmp]; omega
  | cons a1 as ih =>
    intro b
    cases b with
    | nil => rw [strcasecmp, strcasecmp]; omega
    | cons b1 bs =>
      rw [strcasecmp, strcasecmp]
      by_cases h : tolowerB a1 = tolowerB b1
      · rw [if_pos h, if_pos h.symm, ih bs]
      · rw [if_neg h, if_neg (fun he => h he.symm)]
        omega

theorem strcasecmp_trans :
    ∀ a b c : List Nat, strcasecmp a b < 0 → strcasecmp b c < 0 →
      strcasecmp a c < 0 := by
  intro a
  induction a with
  | nil =>
    intro b c hab hbc
    cases b with
    | nil => rw [strcasecmp] at hab; omega
    | cons b1 bs =>
      rw [strcasecmp] at hab
      cases c with
      | nil => rw [strcasecmp] at hbc; omega
      | cons c1 cs =>
        rw [strcasecmp] at hbc
        rw [strcasecmp]
        by_cases h : tolowerB b1 = tolowerB c1
        · rw [if_pos h] at hbc; omega
        · rw [if_neg h] at hbc; omega
  | cons a1 as ih =>
    intro b c hab hbc
    cases b with
    | nil => rw [strcasecmp] at hab; omega
    | cons b1 bs =>
      cases c with
      | nil => rw [strcasecmp] at hbc; omega
      | cons c1 cs =>
        rw [strcasecmp] at hab hbc ⊢
        by_cases h1 : tolowerB a1 = tolowerB b1 <;>
          by_cases h2 : tolowerB b1 = tolowerB c1
        · rw [if_pos h1] at hab
          rw [if_pos h2] at hbc
          rw [if_pos (h1.trans h2)]
          exact ih bs cs hab hbc
        · rw [if_pos h1] at hab
          rw [if_neg h2] at hbc
          rw [if_neg (by omega : ¬tolowerB a1 = tolowerB c1)]
          omega
        · rw [if_neg h1] at hab
          rw [if_pos h2] at hbc
          rw [if_neg (by omega : ¬tolowerB a1 = tolowerB c1)]
          omega
        · rw [if_neg h1] at hab
          rw [if_neg h2] at hbc
          rw [if_neg (by omega : ¬tolowerB a1 = tolowerB c1)]
          omega

theorem cmp_res_self (key : sort_type) (a : file_entry) :
    cmp_res key a a = 0 := by
  cases key <;> simp [cmp_res, strcasecmp_self]

theorem cmp_res_antisym (key : sort_type) (a b : file_entry) :
    cmp_res key a b = -cmp_res key b a := by
  cases key with
  | SORT_LEXICO => exact strcasecmp_antisym a.name b.name
  | SORT_SIZE => simp only [cmp_res]; split_ifs <;> omega
  | SORT_ATIME => simp only [cmp_res]; split_ifs <;> omega
  | SORT_MTIME => simp only [cmp_res]; split_ifs <;> omega
  | SORT_CTIME => simp only [cmp_res]; split_ifs <;> omega

theorem cmp_res_trans (key : sort_type) (a b c : file_entry)
    (hab : cmp_res key a b < 0) (hbc : cmp_res key b c < 0) :
    cmp_res key a c < 0 := by
  cases key with
  | SORT_LEXICO => exact strcasecmp_trans a.name b.name c.name hab hbc
  | SORT_SIZE =>
    simp only [cmp_res] at hab hbc ⊢; split_ifs at hab hbc ⊢ <;> omega
  | SORT_ATIME =>
    simp only [cmp_res] at hab hbc ⊢; split_ifs at hab hbc ⊢ <;> omega
  | SORT_MTIME =>
    simp only [cmp_res] at hab hbc ⊢; split_ifs at hab hbc ⊢ <;> omega
  | SORT_CTIME =>
    simp only [cmp_res] at hab hbc ⊢; split_ifs at hab hbc ⊢ <;> omega

/-- C6: for every fixed sort key and reverse flag, cmp is a strict weak
ordering over entries: it is irreflexive (cmp(a,a) = 0, never "less"),
transitive in its "less" results, and swap-consistent (cmp(a,b) < 0 exactly
when cmp(b,a) > 0); and cmp with the reverse flag set is the exact negation
of cmp with it unset, for every key including the lexicographic one. -/
theorem cmp_strict_weak_order (key : sort_type) (rev : Bool)
    (a b c : file_entry) :
    cmp key rev a a = 0 ∧
      (cmp key rev a b < 0 → cmp key rev b c < 0 → cmp key rev a c < 0) ∧
      (cmp key rev a b < 0 ↔ 0 < cmp key rev b a) ∧
      cmp key true a b = -cmp key false a b := by
  have hgt : ∀ x y, cmp_res key x y < 0 ↔ 0 < cmp_res key y x := by
    intro x y
    rw [cmp_res_antisym key x y]
    omega
  cases rev with
  | false =>
    refine ⟨cmp_res_self key a, ?_, ?_, ?_⟩
    · exact cmp_res_trans key a b c
    · exact hgt a b
    · simp [cmp]
  | true =>
    simp only [cmp, if_pos]
    refine ⟨by rw [cmp_res_self key a]; exact neg_zero, ?_, ?_, rfl⟩
    · intro hab hbc
      have h1 : 0 < cmp_res key a b := by omega
      have h2 : 0 < cmp_res key b c := by omega
      have h3 : cmp_res key c b < 0 := by rw [hgt]; omega
      have h4 : cmp_res key b a < 0 := by rw [hgt]; omega
      have := cmp_res_trans key c b a h3 h4
      rw [hgt] at this
      omega
    · rw [cmp_res_antisym key a b]
      omega

theorem insertByCmp_mem (c : file_entry → file_entry → Int) (x y : file_entry) :
    ∀ l : List file_entry, y ∈ insertByCmp c x l ↔ y = x ∨ y ∈ l := by
  intro l
  induction l with
  | nil => simp [insertByCmp]
  | cons z l ih =>
    rw [insertByCmp]
    split_ifs with h
    · simp
    · simp only [List.mem_cons, ih]
      tauto

theorem sortByCmp_mem (c : file_entry → file_entry → Int) (y : file_entry) :
    ∀ l : List file_entry, y ∈ sortByCmp c l ↔ y ∈ l := by
  intro l
  induction l with
  | nil => simp [sortByCmp]
  | cons z l ih =>
    rw [sortByCmp, insertByCmp_mem, ih]
    simp

theorem insertByCmp_length (c : file_entry → file_entry → Int) (x : file_entry) :
    ∀ l : List file_entry, (insertByCmp c x l).length = l.length + 1 := by
  intro l
  induction l with
  | nil => rfl
  | cons z l ih =>
    rw [insertByCmp]
    split_ifs <;> simp [ih]

theorem sortByCmp_length (c : file_entry → file_entry → Int) :
    ∀ l : List file_entry, (sortByCmp c l).length = l.length := by
  intro l
  induction l with
  | nil => rfl
  | cons z l ih => rw [sortByCmp, insertByCmp_length, ih, List.length_cons]

theorem insertByCmp_pairwise (c : file_entry → file_entry → Int)
    (P : file_entry → Prop)
    (htot : ∀ x y, ¬c x y ≤ 0 → c y x ≤ 0)
    (htrans : ∀ x y z, P x → P y → P z → c x y ≤ 0 → c y z ≤ 0 → c x z ≤ 0)
    (x : file_entry) (hx : P x) :
    ∀ l : List file_entry, (∀ y ∈ l, P y) →
      l.Pairwise (fun u v => c u v ≤ 0) →
      (insertByCmp c x l).Pairwise (fun u v => c u v ≤ 0) := by
  intro l
  induction l with
  | nil => intro _ _; simp [insertByCmp]
  | cons z l ih =>
    intro hP hl
    rw [List.pairwise_cons] at hl
    rw [insertByCmp]
    split_ifs with h
    · rw [List.pairwise_cons]
      refine ⟨?_, List.pairwise_cons.mpr hl⟩
      intro y hy
      rcases List.mem_cons.mp hy with heq | hy
      · rw [heq]; exact h
      · exact htrans x z y hx (hP z (List.mem_cons_self z l))
          (hP y (List.mem_cons_of_mem z hy)) h (hl.1 y hy)
    · rw [List.pairwise_cons]
      refine ⟨?_, ih (fun y hy => hP y (List.mem_cons_of_mem z hy)) hl.2⟩
      intro y hy
      rcases (insertByCmp_mem c x y l).mp hy with heq | hy
      · rw [heq]; exact htot x z h
      · exact hl.1 y hy

theorem sortByCmp_pairwise (c : file_entry → file_entry → Int)
    (P : file_entry → Prop)
    (htot : ∀ x y, ¬c x y ≤ 0 → c y x ≤ 0)
    (htrans : ∀ x y z, P x → P y → P z → c x y ≤ 0 → c y z ≤ 0 → c x z ≤ 0) :
    ∀ l : List file_entry, (∀ y ∈ l, P y) →
      (sortByCmp c l).Pairwise (fun u v => c u v ≤ 0) := by
  intro l
  induction l with
  | nil => intro _; simp [sortByCmp]
  | cons z l ih =>
    intro hP
    rw [sortByCmp]
    refine insertByCmp_pairwise c P htot htrans z
      (hP z (List.mem_cons_self z l)) (sortByCmp c l) ?_ ?_
    · intro y hy
      exact hP y (List.mem_cons_of_mem z ((sortByCmp_mem c y l).mp hy))
    · exact ih fun y hy => hP y (List.mem_cons_of_mem z hy)

theorem stat_place_fst :
    ∀ args : List file_entry,
      (stat_place args).1 = args.filter (fun e => !e.isDir) := by
  intro args
  induction args with
  | nil => rfl
  | cons e rest ih =>
    rw [stat_place]
    cases he : e.isDir <;> simp [he, ih]

theorem stat_place_snd :
    ∀ args : List file_entry,
      (stat_place args).2 = (args.filter (fun e => e.isDir)).reverse := by
  intro args
  induction args with
  | nil => rfl
  | cons e rest ih =>
    rw [stat_place]
    cases he : e.isDir <;> simp [he, ih]

/-- A valid C name string: no interior NUL byte. -/
def validName (e : file_entry) : Prop := ∀ byte ∈ e.name, byte ≠ 0

theorem tolowerB_eq_zero (c : Nat) : tolowerB c = 0 ↔ c = 0 := by
  by_cases hc : c = 0
  · subst hc
    simp [tolowerB]
  · simp only [hc, iff_false]
    rw [tolowerB]
    split_ifs with h
    · simp
    · exact hc

/-- Transitivity of the non-strict case-insensitive order on valid C
strings (a zero result can stand for a proper prefix only through a NUL
byte, which valid names exclude). -/
theorem strcasecmp_le_trans :
    ∀ a b c : List Nat,
      (∀ x ∈ a, x ≠ 0) → (∀ x ∈ b, x ≠ 0) →
      strcasecmp a b ≤ 0 → strcasecmp b c ≤ 0 → strcasecmp a c ≤ 0 := by
  intro a
  induction a with
  | nil =>
    intro b c _ _ _ _
    cases c with
    | nil => rw [strcasecmp]
    | cons c1 cs => rw [strcasecmp]; omega
  | cons a1 as ih =>
    intro b c hva hvb hab hbc
    cases b with
    | nil =>
      rw [strcasecmp] at hab
      have : tolowerB a1 = 0 := by omega
      rw [tolowerB_eq_zero] at this
      exact absurd this (hva a1 (List.mem_cons_self a1 as))
    | cons b1 bs =>
      cases c with
      | nil =>
        rw [strcasecmp] at hbc
        have : tolowerB b1 = 0 := by omega
        rw [tolowerB_eq_zero] at this
        exact absurd this (hvb b1 (List.mem_cons_self b1 bs))
      | cons c1 cs =>
        rw [strcasecmp] at hab hbc ⊢
        by_cases h1 : tolowerB a1 = tolowerB b1 <;>
          by_cases h2 : tolowerB b1 = tolowerB c1
        · rw [if_pos h1] at hab
          rw [if_pos h2] at hbc
          rw [if_pos (h1.trans h2)]
          exact ih bs cs (fun x hx => hva x (List.mem_cons_of_mem a1 hx))
            (fun x hx => hvb x (List.mem_cons_of_mem b1 hx)) hab hbc
        · rw [if_pos h1] at hab
          rw [if_neg h2] at hbc
          rw [if_neg (by omega : ¬tolowerB a1 = tolowerB c1)]
          omega
        · rw [if_neg h1] at hab
          rw [if_pos h2] at hbc
          rw [if_neg (by omega : ¬tolowerB a1 = tolowerB c1)]
          omega
        · rw [if_neg h1] at hab
          rw [if_neg h2] at hbc
          by_cases h3 : tolowerB a1 = tolowerB c1
          · rw [if_pos h3]
            omega
          · rw [if_neg h3]
            omega

theorem cmp_lexico_eq (a b : file_entry) :
    cmp sort_type.SORT_LEXICO false a b = strcasecmp a.name b.name := by
  simp [cmp, cmp_res]

/-- C9: stat_and_sort overwrites the process-wide configuration with
reverse = 0 and sort_key = SORT_LEXICO before sorting, so its result is
identical for every configuration in force at the call (in particular the
caller's reverse option never affects this sort); the first non_dirc output
entries are exactly the non-directories and the remaining ones the
directories, and each of the two blocks is in ascending case-insensitive
lexicographic order. -/
theorem stat_and_sort_spec (args : List file_entry) (st st2 : sort_state)
    (hvalid : ∀ e ∈ args, validName e) :
    stat_and_sort args st = stat_and_sort args st2 ∧
      (∀ e ∈ (stat_and_sort args st).1.take (stat_and_sort args st).2.1,
        e.isDir = false) ∧
      (∀ e ∈ (stat_and_sort args st).1.drop (stat_and_sort args st).2.1,
        e.isDir = true) ∧
      ((stat_and_sort args st).1.take (stat_and_sort args st).2.1).Pairwise
        (fun u v => strcasecmp u.name v.name ≤ 0) ∧
      ((stat_and_sort args st).1.drop (stat_and_sort args st).2.1).Pairwise
        (fun u v => strcasecmp u.name v.name ≤ 0) := by
  have htot : ∀ x y : file_entry,
      ¬cmp sort_type.SORT_LEXICO false x y ≤ 0 →
        cmp sort_type.SORT_LEXICO false y x ≤ 0 := by
    intro x y h
    rw [cmp_lexico_eq] at h ⊢
    rw [strcasecmp_antisym]
    omega
  have htrans : ∀ x y z : file_entry, validName x → validName y → validName z →
      cmp sort_type.SORT_LEXICO false x y ≤ 0 →
        cmp sort_type.SORT_LEXICO false y z ≤ 0 →
        cmp sort_type.SORT_LEXICO false x z ≤ 0 := by
    intro x y z hx hy _ hxy hyz
    rw [cmp_lexico_eq] at hxy hyz ⊢
    exact strcasecmp_le_trans x.name y.name z.name hx hy hxy hyz
  have hfront : (stat_place args).1 = args.filter (fun e => !e.isDir) :=
    stat_place_fst args
  have hback : (stat_place args).2 = (args.filter (fun e => e.isDir)).reverse :=
    stat_place_snd args
  have hlen : (sortByCmp (cmp sort_type.SORT_LEXICO false)
      (stat_place args).1).length = (stat_place args).1.length :=
    sortByCmp_length _ _
  have htake : (stat_and_sort args st).1.take (stat_and_sort args st).2.1 =
      sortByCmp (cmp sort_type.SORT_LEXICO false) (stat_place args).1 := by
    rw [stat_and_sort]
    simp only
    rw [← hlen, List.take_left]
  have hdrop : (stat_and_sort args st).1.drop (stat_and_sort args st).2.1 =
      sortByCmp (cmp sort_type.SORT_LEXICO false) (stat_place args).2 := by
    rw [stat_and_sort]
    simp only
    rw [← hlen, List.drop_left]
  refine ⟨rfl, ?_, ?_, ?_, ?_⟩
  · intro e he
    rw [htake, sortByCmp_mem, hfront, List.mem_filter] at he
    simpa using he.2
  · intro e he
    rw [hdrop, sortByCmp_mem, hback, List.mem_reverse, List.mem_filter] at he
    simpa using he.2
  · rw [htake]
    have := sortByCmp_pairwise (cmp sort_type.SORT_LEXICO false) validName
      htot htrans (stat_place args).1 ?_
    · refine this.imp ?_
      intro u v h
      rwa [cmp_lexico_eq] at h
    · intro y hy
      rw [hfront, List.mem_filter] at hy
      exact hvalid y hy.1
  · rw [hdrop]
    have := sortByCmp_pairwise (cmp sort_type.SORT_LEXICO false) validName
      htot htrans (stat_place args).2 ?_
    · refine this.imp ?_
      intro u v h
      rwa [cmp_lexico_eq] at h
    · intro y hy
      rw [hback, List.mem_reverse, List.mem_filter] at hy
      exact hvalid y hy.1

/-- Witness for `stat_and_sort_spec`: arguments named "b", "A", "c" (two
files and one directory), under any two prior configurations. -/
theorem stat_and_sort_spec_witness :
    (∀ e ∈ [⟨[98], 0, 0, 0, 0, false⟩, ⟨[65], 0, 0, 0, 0, false⟩,
        (⟨[99], 0, 0, 0, 0, true⟩ : file_entry)], validName e) ∧
      stat_and_sort
          [⟨[98], 0, 0, 0, 0, false⟩, ⟨[65], 0, 0, 0, 0, false⟩,
            ⟨[99], 0, 0, 0, 0, true⟩]
          ⟨sort_type.SORT_SIZE, true⟩ =
        stat_and_sort
          [⟨[98], 0, 0, 0, 0, false⟩, ⟨[65], 0, 0, 0, 0, false⟩,
            ⟨[99], 0, 0, 0, 0, true⟩]
          ⟨sort_type.SORT_LEXICO, false⟩ :=
  ⟨by simp only [validName]; decide,
    (stat_and_sort_spec _ ⟨sort_type.SORT_SIZE, true⟩
      ⟨sort_type.SORT_LEXICO, false⟩ (by simp only [validName]; decide)).1⟩

/-- What print_name leaves in the buffer: the substituted name truncated to
the remaining capacity, the capacity reduced by the full name length
(floored at zero). -/
theorem print_name_eq (name : List Char) :
    ∀ (b : wbuf) (flag : flags),
      print_name b name flag =
        { data := b.data ++ (name.map (name_subst flag)).take b.remain,
          remain := b.remain - name.length } := by
  induction name with
  | nil => intro b flag; simp [print_name]
  | cons c rest ih =>
    intro b flag
    have hstep : print_name b (c :: rest) flag =
        print_name (print_char b (name_subst flag c)) rest flag := by
      rw [print_name, print_name, List.foldl_cons]
    rw [hstep, ih]
    rw [print_char]
    by_cases h : 1 ≤ b.remain
    · rw [if_pos h]
      have htake : (name_subst flag c :: rest.map (name_subst flag)).take b.remain
          = name_subst flag c :: (rest.map (name_subst flag)).take (b.remain - 1) := by
        cases hr : b.remain with
        | zero => omega
        | succ k => simp
      simp only [List.map_cons, htake, List.length_cons, wbuf.mk.injEq]
      constructor
      · simp
      · omega
    · rw [if_neg h]
      have hr : b.remain = 0 := by omega
      simp [hr]

/-- C4 (amended): a record whose rendered text exceeds the remaining buffer
capacity does not make the build fail — print_char silently discards every
character once the capacity is exhausted, so the record is truncated to the
capacity and output is still produced for it (the only capacity check that
aborts is print_long's `remain < 12` mode-string test, which record length
itself never triggers). -/
theorem record_overflow_truncates (b : wbuf) (c : Char) (name : List Char)
    (flag : flags) :
    (b.remain = 0 → print_char b c = b) ∧
      print_name b name flag =
        { data := b.data ++ (name.map (name_subst flag)).take b.remain,
          remain := b.remain - name.length } ∧
      (print_name b name flag).data.length =
        b.data.length + min b.remain name.length := by
  refine ⟨?_, print_name_eq name b flag, ?_⟩
  · intro h
    rw [print_char, if_neg (by omega)]
  · rw [print_name_eq name b flag]
    simp [List.length_take]

/-- C4 counterexample: a 600-character name against the LINE_SIZE = 512
record buffer.  The claim says building such a record fails with a
BufferExhausted error and produces no output; instead print_file's name
loop writes the first 512 characters and stops, producing a truncated
record and no error. -/
theorem record_overflow_not_an_error :
    (print_name ⟨[], LINE_SIZE⟩ (List.replicate 600 'a') flags_init).data =
        List.replicate 512 'a' ∧
      (print_name ⟨[], LINE_SIZE⟩ (List.replicate 600 'a') flags_init).remain
        = 0 ∧
      LINE_SIZE < (List.replicate 600 'a').length := by
  have hsub : name_subst flags_init 'a' = 'a' := by decide
  have heq : print_name ⟨[], LINE_SIZE⟩ (List.replicate 600 'a') flags_init =
      { data := List.replicate 512 'a', remain := 0 } := by
    rw [print_name_eq]
    simp only [List.map_replicate, hsub, List.length_replicate,
      wbuf.mk.injEq]
    constructor
    · rw [List.take_replicate]
      simp [LINE_SIZE]
    · decide
  rw [heq]
  refine ⟨rfl, rfl, ?_⟩
  simp [LINE_SIZE]

theorem natDecGo_digits (fuel : Nat) :
    ∀ n c, c ∈ natDecGo fuel n → 48 ≤ c.toNat ∧ c.toNat ≤ 57 := by
  induction fuel with
  | zero => intro n c hc; simp [natDecGo] at hc
  | succ fuel ih =>
    intro n c hc
    rw [natDecGo] at hc
    by_cases h : n < 10
    · rw [if_pos h] at hc
      simp only [List.mem_singleton] at hc
      subst hc
      interval_cases n <;> decide
    · rw [if_neg h] at hc
      rcases List.mem_append.mp hc with hc | hc
      · exact ih (n / 10) c hc
      · simp only [List.mem_singleton] at hc
        subst hc
        have h10 : n % 10 < 10 := Nat.mod_lt n (by omega)
        interval_cases h : n % 10 <;> decide

theorem DELIMITER_not_mem_dec (n : Nat) : DELIMITER ∉ print_size_dec n := by
  intro h
  have := natDecGo_digits (n + 1) n DELIMITER h
  have h8 : DELIMITER.toNat = 8 := by decide
  omega

theorem DELIMITER_not_mem_symbol (m : st_mode_t) (flag : flags) :
    DELIMITER ∉ print_type_symbol m flag := by
  rw [print_type_symbol]
  cases m.kind <;> first
    | decide
    | (split_ifs <;> decide)

theorem delimCount_append (a b : List Char) :
    delimCount (a ++ b) = delimCount a + delimCount b := by
  simp [delimCount, List.countP_append]

theorem delimCount_eq_zero (a : List Char) (h : DELIMITER ∉ a) :
    delimCount a = 0 := by
  rw [delimCount, List.countP_eq_zero]
  intro c hc
  simp only [beq_iff_eq]
  intro he
  exact h (he ▸ hc)

theorem lastField_free (t : List Char) (h : DELIMITER ∉ t) :
    lastField t = t := by
  rw [lastField, List.takeWhile_eq_self_iff.mpr, List.reverse_reverse]
  intro c hc
  simp only [bne_iff_ne, ne_eq]
  intro he
  exact h (he ▸ (List.mem_reverse.mp hc))

theorem lastField_concat (s t : List Char) (h : DELIMITER ∉ t) :
    lastField (s ++ DELIMITER :: t) = t := by
  rw [lastField, List.reverse_append, List.reverse_cons, List.append_assoc,
    List.takeWhile_append]
  have htw : t.reverse.takeWhile (fun c => c != DELIMITER) = t.reverse := by
    rw [List.takeWhile_eq_self_iff]
    intro c hc
    simp only [bne_iff_ne, ne_eq]
    intro he
    exact h (he ▸ (List.mem_reverse.mp hc))
  rw [htw]
  rw [if_pos (by simp)]
  have : ([DELIMITER] ++ s.reverse).takeWhile (fun c => c != DELIMITER) = [] := by
    simp [List.takeWhile]
  rw [this]
  simp

theorem lastField_prefix (p tail : List Char) (hp : delim_terminated p)
    (ht : DELIMITER ∉ tail) : lastField (p ++ tail) = tail := by
  rcases hp with rfl | ⟨q, rfl⟩
  · rw [List.nil_append]
    exact lastField_free tail ht
  · rw [List.append_assoc]
    exact lastField_concat q tail ht

theorem delim_terminated_append (p1 p2 : List Char)
    (h1 : delim_terminated p1) (h2 : delim_terminated p2) :
    delim_terminated (p1 ++ p2) := by
  rcases h2 with rfl | ⟨q, rfl⟩
  · simpa using h1
  · exact Or.inr ⟨p1 ++ q, by simp⟩

theorem delim_terminated_long (sb : stat_t) (flag : flags)
    (modeStr : List Char) (pw grp : Option (List Char)) (timeStr : List Char) :
    delim_terminated (print_long_text sb flag modeStr pw grp timeStr) := by
  refine Or.inr ⟨modeStr ++ DELIMITER ::
    (print_size_dec sb.st_nlink ++ DELIMITER ::
      (print_owner_text sb pw flag ++ DELIMITER ::
        (print_group_text sb grp flag ++ DELIMITER ::
          (print_size_text sb flag ++ DELIMITER :: timeStr)))), ?_⟩
  rw [print_long_text]
  simp

theorem delim_terminated_opt (c : Prop) [Decidable c] (x : List Char) :
    delim_terminated (if c then x ++ [DELIMITER] else []) := by
  split_ifs with h
  · exact Or.inr ⟨x, rfl⟩
  · exact Or.inl rfl

theorem lastField_parts (a b c d e f : List Char)
    (ha : delim_terminated a) (hb : delim_terminated b)
    (hc : delim_terminated c) (hdef : DELIMITER ∉ d ++ (e ++ f)) :
    lastField ((((a ++ b ++ c) ++ d) ++ e) ++ f) = d ++ (e ++ f) := by
  have hre : (((a ++ b ++ c) ++ d) ++ e) ++ f =
      (a ++ b ++ c) ++ (d ++ (e ++ f)) := by simp
  rw [hre]
  exact lastField_prefix _ _
    (delim_terminated_append _ _ (delim_terminated_append _ _ ha hb) hc) hdef

/-- The symbol table of print_type_symbol written as the claim reads it. -/
theorem print_type_symbol_table (m : st_mode_t) (flag : flags) :
    print_type_symbol m flag =
      if m.kind = file_kind.dir then ['/']
      else if m.kind = file_kind.fifo then ['|']
      else if m.kind = file_kind.lnk then
        (if flag.lflag || flag.nflag then [] else ['@'])
      else if m.kind = file_kind.sock then ['=']
      else if m.kind = file_kind.wht then ['%']
      else if m.xusr || m.xgrp || m.xoth then ['*']
      else [] := by
  obtain ⟨kind, xu, xg, xo⟩ := m
  cases kind <;> simp [print_type_symbol] <;>
    cases hl : flag.lflag <;> cases hn : flag.nflag <;> simp [hl, hn]

/-- print_file_text with the F flag forced on, written over the plain flag
record (every other flag is read unchanged, and the F test succeeds). -/
theorem print_file_text_F_true (name : List Char) (sb : stat_t) (flag : flags)
    (modeStr : List Char) (pw grp : Option (List Char))
    (timeStr linkText : List Char) (blocksize : Nat) :
    print_file_text name sb { flag with Fflag := true } modeStr pw grp
        timeStr linkText blocksize =
      (if !flag.dflag && !display_file name flag then []
      else
        ((((if flag.iflag then print_size_dec sb.st_ino ++ [DELIMITER]
            else []) ++
          (if flag.sflag then
            print_blks_text sb.st_blocks flag blocksize ++ [DELIMITER]
          else []) ++
          (if flag.lflag || flag.nflag then
            print_long_text sb flag modeStr pw grp timeStr else [])) ++
          print_name_text name flag) ++
          print_type_symbol sb.st_mode flag) ++
          (if (flag.lflag || flag.nflag) &&
              sb.st_mode.kind == file_kind.lnk then linkText else [])) :=
  rfl

/-- print_file_text with the F flag forced off, written over the plain flag
record (the symbol block is empty). -/
theorem print_file_text_F_false (name : List Char) (sb : stat_t) (flag : flags)
    (modeStr : List Char) (pw grp : Option (List Char))
    (timeStr linkText : List Char) (blocksize : Nat) :
    print_file_text name sb { flag with Fflag := false } modeStr pw grp
        timeStr linkText blocksize =
      (if !flag.dflag && !display_file name flag then []
      else
        ((((if flag.iflag then print_size_dec sb.st_ino ++ [DELIMITER]
            else []) ++
          (if flag.sflag then
            print_blks_text sb.st_blocks flag blocksize ++ [DELIMITER]
          else []) ++
          (if flag.lflag || flag.nflag then
            print_long_text sb flag modeStr pw grp timeStr else [])) ++
          print_name_text name flag) ++ ([] : List Char)) ++
          (if (flag.lflag || flag.nflag) &&
              sb.st_mode.kind == file_kind.lnk then linkText else [])) :=
  rfl

/-- C7: with the append-type-symbol option set, the symbol is exactly '/'
for a directory, '|' for a fifo, '@' for a symlink unless long format (the
l or n flag) is active, '=' for a socket, '%' for a whiteout, '*' for any
other kind with any execute bit, and nothing otherwise; it is appended
directly to the name field and never as a separate field: the record's
field count is unchanged by the F flag, and the record's last field is the
rendered name followed by the symbol (and, for a symlink in long format,
the link-target text). -/
theorem type_symbol_spec (name : List Char) (sb : stat_t) (flag : flags)
    (modeStr : List Char) (pw grp : Option (List Char))
    (timeStr linkText : List Char) (blocksize : Nat)
    (hdisp : flag.dflag = true ∨ display_file name flag = true)
    (hname : DELIMITER ∉ print_name_text name flag)
    (hlink : DELIMITER ∉ linkText) :
    (print_type_symbol sb.st_mode flag =
      if sb.st_mode.kind = file_kind.dir then ['/']
      else if sb.st_mode.kind = file_kind.fifo then ['|']
      else if sb.st_mode.kind = file_kind.lnk then
        (if flag.lflag || flag.nflag then [] else ['@'])
      else if sb.st_mode.kind = file_kind.sock then ['=']
      else if sb.st_mode.kind = file_kind.wht then ['%']
      else if sb.st_mode.xusr || sb.st_mode.xgrp || sb.st_mode.xoth then ['*']
      else []) ∧
    fieldCount (print_file_text name sb { flag with Fflag := true } modeStr
        pw grp timeStr linkText blocksize) =
      fieldCount (print_file_text name sb { flag with Fflag := false } modeStr
        pw grp timeStr linkText blocksize) ∧
    lastField (print_file_text name sb { flag with Fflag := true } modeStr
        pw grp timeStr linkText blocksize) =
      print_name_text name flag ++
        (print_type_symbol sb.st_mode flag ++
          (if (flag.lflag || flag.nflag) &&
              sb.st_mode.kind == file_kind.lnk then linkText else [])) := by
  have hcond : ((!flag.dflag && !display_file name flag) = true) → False := by
    intro h
    rcases hdisp with hd | hd <;> simp [hd] at h
  refine ⟨print_type_symbol_table sb.st_mode flag, ?_, ?_⟩
  · rw [print_file_text_F_true, print_file_text_F_false]
    by_cases h : (!flag.dflag && !display_file name flag) = true
    · rw [if_pos h, if_pos h]
    · rw [if_neg h, if_neg h]
      have hsym : delimCount (print_type_symbol sb.st_mode flag) = 0 :=
        delimCount_eq_zero _ (DELIMITER_not_mem_symbol sb.st_mode flag)
      have hnil : delimCount ([] : List Char) = 0 := rfl
      simp only [fieldCount, delimCount_append, hsym, hnil]
  · rw [print_file_text_F_true,
      if_neg (fun h => hcond h)]
    refine lastField_parts _ _ _ _ _ _ ?_ ?_ ?_ ?_
    · exact delim_terminated_opt _ _
    · exact delim_terminated_opt _ _
    · split_ifs with h
      · exact delim_terminated_long sb flag modeStr pw grp timeStr
      · exact Or.inl rfl
    · intro hmem
      rcases List.mem_append.mp hmem with hmem | hmem
      · exact hname hmem
      · rcases List.mem_append.mp hmem with hmem | hmem
        · exact DELIMITER_not_mem_symbol sb.st_mode flag hmem
        · split_ifs at hmem with h
          · exact hlink hmem
          · simp at hmem

/-- Witness for `type_symbol_spec`: a plain one-letter directory entry with
only the F flag set. -/
theorem type_symbol_spec_witness :
    (flags_init.dflag = true ∨ display_file ['x'] flags_init = true) ∧
      lastField (print_file_text ['x']
          ⟨0, ⟨file_kind.dir, false, false, false⟩, 0, 0, 0, 0, 0, 0, 0⟩
          { flags_init with Fflag := true } [] none none [] [] 512) =
        print_name_text ['x'] flags_init ++
          (print_type_symbol ⟨file_kind.dir, false, false, false⟩ flags_init ++
            (if (flags_init.lflag || flags_init.nflag) &&
                (⟨0, ⟨file_kind.dir, false, false, false⟩, 0, 0, 0, 0, 0, 0, 0⟩
                  : stat_t).st_mode.kind == file_kind.lnk
              then [] else [])) :=
  ⟨Or.inr (by decide),
    (type_symbol_spec ['x']
      ⟨0, ⟨file_kind.dir, false, false, false⟩, 0, 0, 0, 0, 0, 0, 0⟩
      flags_init [] none none [] [] 512
      (Or.inr (by decide)) (by decide) (by decide)).2.2⟩

theorem listLe_refl (a : List Nat) : listLe a a := by
  induction a with
  | nil => exact List.Forall₂.nil
  | cons x xs ih => exact List.Forall₂.cons (le_refl x) ih

theorem listLe_trans {a b c : List Nat} (h1 : listLe a b) (h2 : listLe b c) :
    listLe a c := by
  induction h1 generalizing c with
  | nil => cases h2; exact List.Forall₂.nil
  | cons hxy _ ih =>
    cases h2 with
    | cons hyz h2t => exact List.Forall₂.cons (le_trans hxy hyz) (ih h2t)

theorem listLe_left_zipmax (a : List Nat) :
    ∀ b : List Nat, a.length = b.length → listLe a (List.zipWith max a b) := by
  induction a with
  | nil =>
    intro b h
    cases b with
    | nil => exact List.Forall₂.nil
    | cons y ys => simp at h
  | cons x xs ih =>
    intro b h
    cases b with
    | nil => simp at h
    | cons y ys =>
      exact List.Forall₂.cons (le_max_left x y) (ih ys (by simpa using h))

theorem listLe_right_zipmax (a : List Nat) :
    ∀ b : List Nat, a.length = b.length → listLe b (List.zipWith max a b) := by
  induction a with
  | nil =>
    intro b h
    cases b with
    | nil => exact List.Forall₂.nil
    | cons y ys => simp at h
  | cons x xs ih =>
    intro b h
    cases b with
    | nil => simp at h
    | cons y ys =>
      exact List.Forall₂.cons (le_max_right x y) (ih ys (by simpa using h))

theorem listLe_sum {a b : List Nat} (h : listLe a b) : a.sum ≤ b.sum := by
  induction h with
  | nil => exact le_refl 0
  | cons hxy _ ih => simp only [List.sum_cons]; omega

theorem getD_length_of_mem (W : List (List Nat)) (m : Nat)
    (hW : ∀ w ∈ W, w.length = m) (i : Nat) (hi : i < W.length) :
    (W.getD i []).length = m := by
  rw [List.getD_eq_getElem W [] hi]
  exact hW W[i] (List.getElem_mem hi)

theorem mcw_fold_length (W : List (List Nat)) (assign : Nat → Nat) (m j : Nat)
    (hW : ∀ w ∈ W, w.length = m) :
    ∀ (l : List Nat) (acc : List Nat), acc.length = m →
      (∀ i ∈ l, i < W.length) →
      (l.foldl (fun acc i =>
        if assign i = j then set_max acc (W.getD i []) else acc) acc).length
        = m := by
  intro l
  induction l with
  | nil => intro acc hacc _; simpa using hacc
  | cons hd tl ih =>
    intro acc hacc hl
    rw [List.foldl_cons]
    refine ih _ ?_ (fun i hi => hl i (List.mem_cons_of_mem hd hi))
    split_ifs with h
    · rw [set_max, List.length_zipWith, hacc,
        getD_length_of_mem W m hW hd (hl hd (List.mem_cons_self hd tl)),
        Nat.min_self]
    · exact hacc

theorem mcw_fold_le (W : List (List Nat)) (assign : Nat → Nat) (m j : Nat)
    (hW : ∀ w ∈ W, w.length = m) :
    ∀ (l : List Nat) (acc : List Nat), acc.length = m →
      (∀ i ∈ l, i < W.length) →
      listLe acc (l.foldl (fun acc i =>
        if assign i = j then set_max acc (W.getD i []) else acc) acc) := by
  intro l
  induction l with
  | nil => intro acc _ _; exact listLe_refl acc
  | cons hd tl ih =>
    intro acc hacc hl
    rw [List.foldl_cons]
    have hstep : listLe acc
        (if assign hd = j then set_max acc (W.getD hd []) else acc) := by
      split_ifs with h
      · exact listLe_left_zipmax acc _
          (by rw [hacc,
            getD_length_of_mem W m hW hd (hl hd (List.mem_cons_self hd tl))])
      · exact listLe_refl acc
    have hlen : (if assign hd = j then set_max acc (W.getD hd [])
        else acc).length = m := by
      split_ifs with h
      · rw [set_max, List.length_zipWith, hacc,
          getD_length_of_mem W m hW hd (hl hd (List.mem_cons_self hd tl)),
          Nat.min_self]
      · exact hacc
    exact listLe_trans hstep
      (ih _ hlen (fun i hi => hl i (List.mem_cons_of_mem hd hi)))

theorem mcw_fold_dom (W : List (List Nat)) (assign : Nat → Nat) (m j : Nat)
    (hW : ∀ w ∈ W, w.length = m) :
    ∀ (l : List Nat) (acc : List Nat), acc.length = m →
      (∀ i ∈ l, i < W.length) →
      ∀ i0 ∈ l, assign i0 = j →
      listLe (W.getD i0 []) (l.foldl (fun acc i =>
        if assign i = j then set_max acc (W.getD i []) else acc) acc) := by
  intro l
  induction l with
  | nil => intro acc _ _ i0 h0; simp at h0
  | cons hd tl ih =>
    intro acc hacc hl i0 h0 hassign
    have hlen : (if assign hd = j then set_max acc (W.getD hd [])
        else acc).length = m := by
      split_ifs with h
      · rw [set_max, List.length_zipWith, hacc,
          getD_length_of_mem W m hW hd (hl hd (List.mem_cons_self hd tl)),
          Nat.min_self]
      · exact hacc
    rw [List.foldl_cons]
    rcases List.mem_cons.mp h0 with heq | h0
    · subst heq
      have hfirst : listLe (W.getD i0 [])
          (if assign i0 = j then set_max acc (W.getD i0 []) else acc) := by
        rw [if_pos hassign]
        exact listLe_right_zipmax acc _
          (by rw [hacc,
            getD_length_of_mem W m hW i0 (hl i0 (List.mem_cons_self i0 tl))])
      exact listLe_trans hfirst
        (mcw_fold_le W assign m j hW tl _ hlen
          (fun i hi => hl i (List.mem_cons_of_mem i0 hi)))
    · exact ih _ hlen (fun i hi => hl i (List.mem_cons_of_mem hd hi))
        i0 h0 hassign

theorem mcw_length (W : List (List Nat)) (assign : Nat → Nat) (m j : Nat)
    (hW : ∀ w ∈ W, w.length = m) :
    (max_col_width W assign m j).length = m := by
  rw [max_col_width]
  exact mcw_fold_length W assign m j hW _ _ (by simp)
    (fun i hi => List.mem_range.mp hi)

theorem mcw_ge_ones (W : List (List Nat)) (assign : Nat → Nat) (m j : Nat)
    (hW : ∀ w ∈ W, w.length = m) :
    listLe (List.replicate m 1) (max_col_width W assign m j) := by
  rw [max_col_width]
  exact mcw_fold_le W assign m j hW _ _ (by simp)
    (fun i hi => List.mem_range.mp hi)

theorem mcw_sum_ge (W : List (List Nat)) (assign : Nat → Nat) (m j : Nat)
    (hW : ∀ w ∈ W, w.length = m) :
    m ≤ (max_col_width W assign m j).sum := by
  have := listLe_sum (mcw_ge_ones W assign m j hW)
  simpa using this

theorem mcw_dom (W : List (List Nat)) (assign : Nat → Nat) (m j : Nat)
    (hW : ∀ w ∈ W, w.length = m) (i0 : Nat) (h : i0 < W.length)
    (ha : assign i0 = j) :
    listLe (W.getD i0 []) (max_col_width W assign m j) := by
  rw [max_col_width]
  exact mcw_fold_dom W assign m j hW _ _ (by simp)
    (fun i hi => List.mem_range.mp hi) i0 (List.mem_range.mpr h) ha

theorem pbw_le (w : List Nat) :
    ∀ M : List Nat, listLe w M → w ≠ [] →
      print_buf_width w M false ≤ M.sum + M.length ∧
      print_buf_width w M true ≤ M.sum + M.length - 1 := by
  induction w with
  | nil => intro M _ hne; exact absurd rfl hne
  | cons w0 ws ih =>
    intro M h hne
    cases h with
    | cons h0 hrest =>
      rename_i M0 Ms
      cases ws with
      | nil =>
        cases hrest
        have hmax : max w0 M0 = M0 := max_eq_right h0
        constructor
        · simp only [print_buf_width, List.sum_cons, List.sum_nil,
            List.length_cons, List.length_nil]
          rw [if_neg (by simp), hmax]
          omega
        · simp only [print_buf_width, List.sum_cons, List.sum_nil,
            List.length_cons, List.length_nil]
          rw [if_pos trivial]
          omega
      | cons w1 wst =>
        cases hrest with
        | cons h1 hrt =>
          rename_i M1 Mst
          obtain ⟨hf, ht⟩ := ih (M1 :: Mst) (List.Forall₂.cons h1 hrt)
            (by simp)
          have hmax : max w0 M0 = M0 := max_eq_right h0
          constructor
          · rw [print_buf_width, hmax]
            simp only [List.sum_cons, List.length_cons] at hf ⊢
            omega
          · rw [print_buf_width, hmax]
            simp only [List.sum_cons, List.length_cons] at ht ⊢
            omega

/-- The cell bound for any newline flag. -/
theorem pbw_le_any (w M : List Nat) (b : Bool) (h : listLe w M)
    (hne : w ≠ []) :
    print_buf_width w M b ≤ M.sum + M.length := by
  obtain ⟨hf, ht⟩ := pbw_le w M h hne
  cases b
  · exact hf
  · omega

theorem listLe_getD {a b : List Nat} (h : listLe a b) :
    ∀ f, a.getD f 0 ≤ b.getD f 0 := by
  induction h with
  | nil => intro f; exact le_refl _
  | cons hxy _ ih =>
    intro f
    cases f with
    | zero => simpa using hxy
    | succ g => simpa using ih g

theorem getD_ne_nil (W : List (List Nat)) (m : Nat)
    (hW : ∀ w ∈ W, w.length = m) (hm : 1 ≤ m) (i : Nat)
    (hi : i < W.length) : W.getD i [] ≠ [] := by
  have hlen := getD_length_of_mem W m hW i hi
  intro hnil
  rw [hnil] at hlen
  simp at hlen
  omega

theorem sum_map_range (f : Nat → Nat) :
    ∀ n, ((List.range n).map f).sum = ∑ j in Finset.range n, f j := by
  intro n
  induction n with
  | zero => simp
  | succ k ih => rw [List.range_succ]; simp [Finset.sum_range_succ, ih]

/-- Summation skeleton of the row-width bound: if every cell is at most
its column total plus the per-cell whitespace m and the last grid column's
cell saves one character (its final field is unpadded or the cell is a
bare newline), the whole row fits in the accumulated total. -/
theorem render_sum_le (cells S : Nat → Nat) (k m : Nat) (hm : 1 ≤ m)
    (hcell : ∀ j, j < k + 1 → cells j ≤ S j + m)
    (hlast : cells k ≤ S k + m - 1) :
    ∑ j in Finset.range (k + 1), cells j ≤
      ∑ j in Finset.range (k + 1), S j + ((k + 1) * m - 1) := by
  rw [Finset.sum_range_succ, Finset.sum_range_succ]
  have h1 : ∑ j in Finset.range k, cells j ≤
      ∑ j in Finset.range k, (S j + m) :=
    Finset.sum_le_sum (fun j hj => hcell j (by
      have := Finset.mem_range.mp hj
      omega))
  have h2 : ∑ j in Finset.range k, (S j + m) =
      ∑ j in Finset.range k, S j + k * m := by
    rw [Finset.sum_add_distrib, Finset.sum_const, Finset.card_range,
      smul_eq_mul]
  have h3 : 1 ≤ S k + m := by omega
  rw [Nat.succ_mul]
  omega

/-- No rendered row of an accepted C-flag grid exceeds the computed total:
each cell is bounded by its grid column's accumulated width plus its
whitespace, and the last grid column's cell (print_buf with the newline
flag, or a bare newline) saves the one character the code subtracted. -/
theorem render_row_le_C (W : List (List Nat))
    (m columns curr_row curr_col i : Nat)
    (hW : ∀ w ∈ W, w.length = m) (hm : 1 ≤ m) (hi : i < curr_row)
    (hfit : row_chars W (assignC curr_row) m curr_col ≤ columns) :
    render_row_width_C W m curr_row curr_col i ≤ columns := by
  refine le_trans ?_ hfit
  rw [render_row_width_C, row_chars, sum_map_range, sum_map_range]
  by_cases hc0 : curr_col = 0
  · subst hc0; simp
  · obtain ⟨k, rfl⟩ : ∃ k, curr_col = k + 1 := ⟨curr_col - 1, by omega⟩
    have hrpos : 0 < curr_row := by omega
    refine render_sum_le _ _ k m hm ?_ ?_
    · intro j _
      by_cases hfull : i + j * curr_row < W.length
      · rw [if_pos hfull]
        have hassign : assignC curr_row (i + j * curr_row) = j := by
          rw [assignC, Nat.add_mul_div_right _ _ hrpos,
            Nat.div_eq_of_lt hi]
          omega
        have := pbw_le_any _ _ (decide (j = k + 1 - 1))
          (mcw_dom W (assignC curr_row) m j hW _ hfull hassign)
          (getD_ne_nil W m hW hm _ hfull)
        rwa [mcw_length W (assignC curr_row) m j hW] at this
      · rw [if_neg hfull]
        omega
    · by_cases hfull : i + k * curr_row < W.length
      · rw [if_pos hfull, show (decide (k = k + 1 - 1)) = true by simp]
        have hassign : assignC curr_row (i + k * curr_row) = k := by
          rw [assignC, Nat.add_mul_div_right _ _ hrpos,
            Nat.div_eq_of_lt hi]
          omega
        have := (pbw_le _ _
          (mcw_dom W (assignC curr_row) m k hW _ hfull hassign)
          (getD_ne_nil W m hW hm _ hfull)).2
        rwa [mcw_length W (assignC curr_row) m k hW] at this
      · rw [if_neg hfull]
        have := mcw_sum_ge W (assignC curr_row) m k hW
        omega

/-- No rendered row of an accepted x-flag grid exceeds the computed
total. -/
theorem render_row_le_x (W : List (List Nat)) (m columns curr_col r : Nat)
    (hW : ∀ w ∈ W, w.length = m) (hm : 1 ≤ m) (hc1 : 1 ≤ curr_col)
    (hfit : row_chars W (assignX curr_col) m curr_col ≤ columns) :
    render_row_width_x W m curr_col r ≤ columns := by
  refine le_trans ?_ hfit
  rw [render_row_width_x, row_chars, sum_map_range, sum_map_range]
  obtain ⟨k, rfl⟩ : ∃ k, curr_col = k + 1 := ⟨curr_col - 1, by omega⟩
  refine render_sum_le _ _ k m hm ?_ ?_
  · intro j hj
    by_cases hfull : r * (k + 1) + j < W.length
    · rw [if_pos hfull]
      have hassign : assignX (k + 1) (r * (k + 1) + j) = j := by
        rw [assignX, Nat.mul_comm, Nat.mul_add_mod, Nat.mod_eq_of_lt hj]
      have := pbw_le_any _ _
        (decide (j = k + 1 - 1) || decide (r * (k + 1) + j = W.length - 1))
        (mcw_dom W (assignX (k + 1)) m j hW _ hfull hassign)
        (getD_ne_nil W m hW hm _ hfull)
      rwa [mcw_length W (assignX (k + 1)) m j hW] at this
    · rw [if_neg hfull]
      omega
  · by_cases hfull : r * (k + 1) + k < W.length
    · rw [if_pos hfull, show (decide (k = k + 1 - 1) ||
        decide (r * (k + 1) + k = W.length - 1)) = true by simp]
      have hassign : assignX (k + 1) (r * (k + 1) + k) = k := by
        rw [assignX, Nat.mul_comm, Nat.mul_add_mod,
          Nat.mod_eq_of_lt (by omega)]
      have := (pbw_le _ _
        (mcw_dom W (assignX (k + 1)) m k hW _ hfull hassign)
        (getD_ne_nil W m hW hm _ hfull)).2
      rwa [mcw_length W (assignX (k + 1)) m k hW] at this
    · rw [if_neg hfull]
      have := mcw_sum_ge W (assignX (k + 1)) m k hW
      omega

theorem search_C_iters (W : List (List Nat)) (m columns : Nat) :
    ∀ (k curr_row : Nat), W.length - curr_row ≤ k →
      (search_C W m columns curr_row).2.2 ≤ k + 1 := by
  intro k
  induction k with
  | zero =>
    intro r h
    rw [search_C, dif_pos (by omega : W.length ≤ r)]
  | succ k ih =>
    intro r h
    rw [search_C]
    by_cases h1 : W.length ≤ r
    · rw [dif_pos h1]; simp
    · rw [dif_neg h1]
      by_cases h2 : row_chars W (assignC r) m (ceil_div W.length r)
          ≤ columns
      · rw [if_pos h2]; simp
      · rw [if_neg h2]
        have := ih (r + 1) (by omega)
        dsimp only
        omega

theorem search_C_spec (W : List (List Nat)) (m columns : Nat) :
    ∀ (k curr_row : Nat), W.length - curr_row ≤ k →
      (search_C W m columns curr_row).2.1 =
          ceil_div W.length (search_C W m columns curr_row).1 ∧
        curr_row ≤ (search_C W m columns curr_row).1 ∧
        (W.length ≤ (search_C W m columns curr_row).1 ∨
          row_chars W (assignC (search_C W m columns curr_row).1) m
            (search_C W m columns curr_row).2.1 ≤ columns) := by
  intro k
  induction k with
  | zero =>
    intro r h
    have h1 : W.length ≤ r := by omega
    rw [search_C, dif_pos h1]
    exact ⟨rfl, le_refl r, Or.inl h1⟩
  | succ k ih =>
    intro r h
    rw [search_C]
    by_cases h1 : W.length ≤ r
    · rw [dif_pos h1]
      exact ⟨rfl, le_refl r, Or.inl h1⟩
    · rw [dif_neg h1]
      by_cases h2 : row_chars W (assignC r) m (ceil_div W.length r)
          ≤ columns
      · rw [if_pos h2]
        exact ⟨rfl, le_refl r, Or.inr h2⟩
      · rw [if_neg h2]
        obtain ⟨ha, hb, hc⟩ := ih (r + 1) (by omega)
        dsimp only
        exact ⟨ha, by omega, hc⟩

theorem search_x_iters (W : List (List Nat)) (m columns : Nat) :
    ∀ curr_col : Nat, 1 ≤ curr_col →
      (search_x W m columns curr_col).2.2 ≤ curr_col := by
  intro c
  induction c with
  | zero => intro h; omega
  | succ c ih =>
    intro _
    rw [search_x]
    by_cases h1 : c + 1 ≤ 1
    · rw [dif_pos h1]; simpa using h1
    · rw [dif_neg h1]
      by_cases h2 : row_chars W (assignX (c + 1)) m (c + 1) ≤ columns
      · rw [if_pos h2]; simp
      · rw [if_neg h2]
        have := ih (by omega)
        dsimp only
        simp only [Nat.add_sub_cancel]
        omega

theorem search_x_spec (W : List (List Nat)) (m columns : Nat) :
    ∀ curr_col : Nat, 1 ≤ curr_col →
      (search_x W m columns curr_col).1 =
          ceil_div W.length (search_x W m columns curr_col).2.1 ∧
        1 ≤ (search_x W m columns curr_col).2.1 ∧
        (search_x W m columns curr_col).2.1 ≤ curr_col ∧
        ((search_x W m columns curr_col).2.1 ≤ 1 ∨
          row_chars W (assignX (search_x W m columns curr_col).2.1) m
            (search_x W m columns curr_col).2.1 ≤ columns) := by
  intro c
  induction c with
  | zero => intro h; omega
  | succ c ih =>
    intro _
    rw [search_x]
    by_cases h1 : c + 1 ≤ 1
    · rw [dif_pos h1]
      dsimp only
      exact ⟨rfl, by omega, le_refl _, Or.inl h1⟩
    · rw [dif_neg h1]
      by_cases h2 : row_chars W (assignX (c + 1)) m (c + 1) ≤ columns
      · rw [if_pos h2]
        dsimp only
        exact ⟨rfl, by omega, le_refl _, Or.inr h2⟩
      · rw [if_neg h2]
        obtain ⟨ha, hb, hc, hd⟩ := ih (by omega)
        dsimp only
        simp only [Nat.add_sub_cancel]
        refine ⟨ha, hb, ?_, hd⟩
        omega

theorem search_C_iters_pos (W : List (List Nat)) (m columns curr_row : Nat) :
    1 ≤ (search_C W m columns curr_row).2.2 := by
  rw [search_C]
  split_ifs <;> simp

theorem search_x_iters_pos (W : List (List Nat)) (m columns curr_col : Nat) :
    1 ≤ (search_x W m columns curr_col).2.2 := by
  rw [search_x]
  split_ifs <;> simp

theorem mcw_fold_attained (W : List (List Nat)) (assign : Nat → Nat)
    (m j f : Nat) (hW : ∀ w ∈ W, w.length = m) :
    ∀ (l : List Nat) (acc : List Nat), acc.length = m →
      (∀ i ∈ l, i < W.length) →
      ((l.foldl (fun acc i =>
          if assign i = j then set_max acc (W.getD i []) else acc) acc).getD
            f 0 = acc.getD f 0 ∨
        ∃ i, i ∈ l ∧ assign i = j ∧ (W.getD i []).getD f 0 =
          (l.foldl (fun acc i =>
            if assign i = j then set_max acc (W.getD i []) else acc)
              acc).getD f 0) := by
  intro l
  induction l with
  | nil => intro acc _ _; exact Or.inl rfl
  | cons hd tl ih =>
    intro acc hacc hl
    rw [List.foldl_cons]
    have hgl := getD_length_of_mem W m hW hd
      (hl hd (List.mem_cons_self hd tl))
    have hlen : (if assign hd = j then set_max acc (W.getD hd [])
        else acc).length = m := by
      split_ifs
      · rw [set_max, List.length_zipWith, hacc, hgl, Nat.min_self]
      · exact hacc
    rcases ih _ hlen (fun i hi => hl i (List.mem_cons_of_mem hd hi)) with
      heq | ⟨i, hi, ha, hv⟩
    · by_cases hhd : assign hd = j
      · have hacc2 : (if assign hd = j then set_max acc (W.getD hd [])
            else acc).getD f 0 =
            max (acc.getD f 0) ((W.getD hd []).getD f 0) := by
          rw [if_pos hhd, set_max,
            zipWith_max_getD acc _ (by rw [hacc, hgl])]
        by_cases hcase : (W.getD hd []).getD f 0 ≤ acc.getD f 0
        · left
          rw [heq, hacc2]
          omega
        · right
          exact ⟨hd, List.mem_cons_self hd tl, hhd,
            by rw [heq, hacc2]; omega⟩
      · left
        rw [heq, if_neg hhd]
    · exact Or.inr ⟨i, List.mem_cons_of_mem hd hi, ha, hv⟩

/-- Each accumulator entry is either the reset value 1 or an assigned
entry's field width: together with `mcw_dom` this says max_col_width holds
exactly the per-field maximum (floored at 1) over the column's entries. -/
theorem mcw_attained (W : List (List Nat)) (assign : Nat → Nat)
    (m j f : Nat) (hW : ∀ w ∈ W, w.length = m) (hf : f < m) :
    (max_col_width W assign m j).getD f 0 = 1 ∨
      ∃ i, i < W.length ∧ assign i = j ∧
        (W.getD i []).getD f 0 = (max_col_width W assign m j).getD f 0 := by
  rw [max_col_width]
  rcases mcw_fold_attained W assign m j f hW (List.range W.length)
    (List.replicate m 1) (by simp)
    (fun i hi => List.mem_range.mp hi) with heq | ⟨i, hi, ha, hv⟩
  · left
    rw [heq, List.getD_eq_getElem _ _ (by simpa using hf)]
    simp
  · exact Or.inr ⟨i, List.mem_range.mp hi, ha, hv⟩

/-- C2 (amended): at every width-search iteration the total compared with
the target is the sum over grid columns of that column's per-field maxima
(the accumulator dominates every assigned entry's field width and each of
its entries is attained or the reset value 1) plus
`curr_col * field_count - 1` separator cells — one per field cell of the
row minus one, not `curr_col - 1` — and at a non-degenerate iteration the
search stops accepting the current grid exactly when this total is at most
the target width (in both grid modes). -/
theorem width_total_formula (W : List (List Nat))
    (m columns curr_row curr_col : Nat) (hW : ∀ w ∈ W, w.length = m)
    (hrn : curr_row < W.length) (hc1 : 1 < curr_col) :
    row_chars W (assignC curr_row) m (ceil_div W.length curr_row) =
      ((List.range (ceil_div W.length curr_row)).map
        (fun j => (max_col_width W (assignC curr_row) m j).sum)).sum +
        (ceil_div W.length curr_row * m - 1) ∧
    (∀ assign : Nat → Nat, ∀ j f, f < m →
      (∀ i, i < W.length → assign i = j →
        (W.getD i []).getD f 0 ≤ (max_col_width W assign m j).getD f 0) ∧
      ((max_col_width W assign m j).getD f 0 = 1 ∨
        ∃ i, i < W.length ∧ assign i = j ∧
          (W.getD i []).getD f 0 = (max_col_width W assign m j).getD f 0)) ∧
    ((search_C W m columns curr_row).2.2 = 1 ↔
      row_chars W (assignC curr_row) m (ceil_div W.length curr_row)
        ≤ columns) ∧
    ((search_x W m columns curr_col).2.2 = 1 ↔
      row_chars W (assignX curr_col) m curr_col ≤ columns) := by
  refine ⟨rfl, ?_, ?_, ?_⟩
  · intro assign j f hf
    refine ⟨?_, mcw_attained W assign m j f hW hf⟩
    intro i hi ha
    exact listLe_getD (mcw_dom W assign m j hW i hi ha) f
  · rw [search_C, dif_neg (by omega : ¬W.length ≤ curr_row)]
    by_cases h2 : row_chars W (assignC curr_row) m
        (ceil_div W.length curr_row) ≤ columns
    · rw [if_pos h2]
      simpa using h2
    · rw [if_neg h2]
      dsimp only
      constructor
      · intro h
        exfalso
        have := search_C_iters_pos W m columns (curr_row + 1)
        omega
      · intro h
        exact absurd h h2
  · rw [search_x, dif_neg (by omega : ¬curr_col ≤ 1)]
    by_cases h2 : row_chars W (assignX curr_col) m curr_col ≤ columns
    · rw [if_pos h2]
      simpa using h2
    · rw [if_neg h2]
      dsimp only
      constructor
      · intro h
        exfalso
        have := search_x_iters_pos W m columns (curr_col - 1)
        omega
      · intro h
        exact absurd h h2

/-- Witness for `width_total_formula`: two one-field records of widths 2
and 3, first iteration of each search. -/
theorem width_total_formula_witness :
    ((∀ w ∈ [[2], [3]], List.length w = 1) ∧ 1 < [[2], [3]].length ∧
      (1 : Nat) < 2) ∧
      ((search_C [[2], [3]] 1 80 1).2.2 = 1 ↔
        row_chars [[2], [3]] (assignC 1) 1 (ceil_div [[2], [3]].length 1)
          ≤ 80) :=
  ⟨⟨by decide, by decide, by decide⟩,
    (width_total_formula [[2], [3]] 1 80 1 2 (by decide) (by decide)
      (by decide)).2.2.1⟩

/-- C2 counterexample: for two records of two fields of width 1 each, at
the first C-mode iteration (curr_row = 1, curr_col = 2) the code compares
7 = 4 + (2 * 2 - 1) separator cells, not 5 = 4 + (2 - 1) as the claim
states: with target width 5 the claimed total would accept the grid, yet
the search does not stop there (it performs a second iteration). -/
theorem width_total_counterexample :
    row_chars [[1, 1], [1, 1]] (assignC 1) 2 2 = 7 ∧
      row_chars_spec [[1, 1], [1, 1]] (assignC 1) 2 2 = 5 ∧
      (search_C [[1, 1], [1, 1]] 2 5 1).2.2 = 2 := by
  refine ⟨by decide, by decide, ?_⟩
  have h2 : search_C [[1, 1], [1, 1]] 2 5 2 = (2, 1, 1) := by
    rw [search_C, dif_pos (by decide)]
    decide
  rw [search_C, dif_neg (by decide), if_neg (by decide)]
  dsimp only
  rw [h2]

/-- C1 (amended): for a batch of n ≥ 1 records of common field count m ≥ 1
and any target width, both width-fitting searches terminate within at most
n iterations; whenever the C search exits below the degenerate
row_count = n, it exited on a fitting total and no rendered output row is
wider than the target; likewise whenever the x search exits above the
degenerate col_count = 1.  At a degenerate exit the emitted grid may
exceed the target — and, unlike the claim states, it may do so even when
the target is at least the width of every single record rendered alone,
because fields are padded to batch-wide per-column maxima (see
`grid_overflow_counterexample`). -/
theorem grid_search_spec (bufs : List (List Char)) (m columns : Nat)
    (hn : 1 ≤ bufs.length) (hm : 1 ≤ m)
    (hfc : ∀ b ∈ bufs, fieldCount b = m) :
    (search_C (entry_widths bufs) m columns 1).2.2 ≤ bufs.length ∧
    (search_x (entry_widths bufs) m columns bufs.length).2.2 ≤
      bufs.length ∧
    ((search_C (entry_widths bufs) m columns 1).1 < bufs.length →
      row_chars (entry_widths bufs)
          (assignC (search_C (entry_widths bufs) m columns 1).1) m
          (search_C (entry_widths bufs) m columns 1).2.1 ≤ columns ∧
      ∀ i < (search_C (entry_widths bufs) m columns 1).1,
        render_row_width_C (entry_widths bufs) m
          (search_C (entry_widths bufs) m columns 1).1
          (search_C (entry_widths bufs) m columns 1).2.1 i ≤ columns) ∧
    (1 < (search_x (entry_widths bufs) m columns bufs.length).2.1 →
      row_chars (entry_widths bufs)
          (assignX (search_x (entry_widths bufs) m columns
            bufs.length).2.1) m
          (search_x (entry_widths bufs) m columns bufs.length).2.1
          ≤ columns ∧
      ∀ r, render_row_width_x (entry_widths bufs) m
        (search_x (entry_widths bufs) m columns bufs.length).2.1 r
        ≤ columns) := by
  have hW : ∀ w ∈ entry_widths bufs, w.length = m := by
    intro w hw
    rw [entry_widths] at hw
    obtain ⟨b, hb, rfl⟩ := List.mem_map.mp hw
    rw [init_max_per_col_length, hfc b hb]
  have hlen : (entry_widths bufs).length = bufs.length := by
    simp [entry_widths]
  refine ⟨?_, ?_, ?_, ?_⟩
  · have := search_C_iters (entry_widths bufs) m columns
      (bufs.length - 1) 1 (by omega)
    omega
  · have := search_x_iters (entry_widths bufs) m columns bufs.length
      (by omega)
    exact this
  · intro hlt
    obtain ⟨hceq, hle1, hexit⟩ := search_C_spec (entry_widths bufs) m
      columns (entry_widths bufs).length 1 (by omega)
    have hfit : row_chars (entry_widths bufs)
        (assignC (search_C (entry_widths bufs) m columns 1).1) m
        (search_C (entry_widths bufs) m columns 1).2.1 ≤ columns := by
      rcases hexit with hdeg | hfit
      · omega
      · exact hfit
    refine ⟨hfit, ?_⟩
    intro i hi
    exact render_row_le_C (entry_widths bufs) m columns _ _ i hW hm hi hfit
  · intro hlt
    obtain ⟨hceq, h1c, hlec, hexit⟩ := search_x_spec (entry_widths bufs) m
      columns bufs.length (by omega)
    have hfit : row_chars (entry_widths bufs)
        (assignX (search_x (entry_widths bufs) m columns
          bufs.length).2.1) m
        (search_x (entry_widths bufs) m columns bufs.length).2.1
        ≤ columns := by
      rcases hexit with hdeg | hfit
      · omega
      · exact hfit
    refine ⟨hfit, ?_⟩
    intro r
    exact render_row_le_x (entry_widths bufs) m columns _ r hW hm
      (by omega) hfit

/-- Witness for `grid_search_spec`: four one-character records with target
width 10 (spec scenario D). -/
theorem grid_search_spec_witness :
    (1 ≤ [['a'], ['b'], ['c'], ['d']].length ∧ (1 : Nat) ≤ 1 ∧
      ∀ b ∈ [['a'], ['b'], ['c'], ['d']], fieldCount b = 1) ∧
      (search_C (entry_widths [['a'], ['b'], ['c'], ['d']]) 1 10 1).2.2 ≤
        [['a'], ['b'], ['c'], ['d']].length :=
  ⟨⟨by decide, by decide, by decide⟩,
    (grid_search_spec [['a'], ['b'], ['c'], ['d']] 1 10 (by decide)
      (by decide) (by decide)).1⟩

/-- C1 counterexample: two two-field records "aaa|b" and "a|bbb" with
target width 6.  Each record rendered alone in its own grid is 5 ≤ 6
characters wide, so the target is not smaller than the widest single
record; yet the C-mode search ends in the degenerate grid
(row_count = 2 = entryc) and its second rendered row is 7 > 6 characters
wide, because the record's first field is padded to the batch-wide column
maximum. -/
theorem grid_overflow_counterexample :
    (∀ b ∈ [['a', 'a', 'a', Char.ofNat 8, 'b'],
        ['a', Char.ofNat 8, 'b', 'b', 'b']],
      render_row_width_C (entry_widths [b]) 2 1 1 0 ≤ 6) ∧
      search_C (entry_widths [['a', 'a', 'a', Char.ofNat 8, 'b'],
          ['a', Char.ofNat 8, 'b', 'b', 'b']]) 2 6 1 = (2, 1, 2) ∧
      render_row_width_C (entry_widths [['a', 'a', 'a', Char.ofNat 8, 'b'],
          ['a', Char.ofNat 8, 'b', 'b', 'b']]) 2 2 1 1 = 7 := by
  refine ⟨by decide, ?_, by decide⟩
  have hw : entry_widths [['a', 'a', 'a', Char.ofNat 8, 'b'],
      ['a', Char.ofNat 8, 'b', 'b', 'b']] = [[3, 1], [1, 3]] := by decide
  rw [hw]
  have h2 : search_C [[3, 1], [1, 3]] 2 6 2 = (2, 1, 1) := by
    rw [search_C, dif_pos (by decide)]
    decide
  rw [search_C, dif_neg (by decide), if_neg (by decide)]
  dsimp only
  rw [h2]

end LsSpec

